import Mathlib

/-!
Shallow embedding of `xex.js` (jsstuff/xex, file `src/xex.js`, version 0.0.2):
a small math-like expression tokenizer, parser, constant folder and compiler.

Modelling conventions, used throughout:
* JS numbers (IEEE-754 doubles) are modelled by `JSNum`: `NaN`, `±Infinity`,
  or an exact rational.  All claims below evaluate only on small integers and
  the special values, where the model agrees with IEEE-754 exactly.
* JS exceptions are modelled with `Except Err`; `Err` is a structured error
  type mirroring the distinct `ExpressionError` messages of the source (the
  exact message strings are kept as comments next to each constructor).
* Unbounded JS loops are modelled with an explicit fuel parameter; fuel
  exhaustion is the distinguished error `Err.fuel`, which never occurs for
  the fuel values chosen by the top-level entry points.
* JS `undefined`/`null` appearing where a number is expected is modelled as
  `JSNum.nan` (which is how it behaves in all numeric contexts used here).
-/

set_option maxRecDepth 20000

namespace Xex

/-- Exact rational numbers backing the JS-number model.  A custom structure
(rather than Mathlib's ℚ, whose arithmetic does not reduce inside the kernel)
so that concrete claims can be settled by `decide`/`rfl`.  The denominator is
always positive; every constructor used by the operations below produces a
value in lowest terms. -/
structure Q where
  num : Int
  den : Nat
  den_pos : 0 < den

instance : Repr Q := ⟨fun a _ => repr a.num ++ " /. " ++ repr a.den⟩

instance : DecidableEq Q := fun a b =>
  match a, b with
  | ⟨n₁, d₁, _⟩, ⟨n₂, d₂, _⟩ =>
      if h : n₁ = n₂ ∧ d₁ = d₂ then
        isTrue (by obtain ⟨h1, h2⟩ := h; subst h1; subst h2; rfl)
      else isFalse (fun e => by cases e; exact h ⟨rfl, rfl⟩)

namespace Q

/-- The rational `n / d` in lowest terms, for positive `d`. -/
def norm (n : Int) (d : Nat) (hd : 0 < d) : Q :=
  ⟨n.tdiv (Nat.gcd n.natAbs d), d / Nat.gcd n.natAbs d, by
    have hg : 0 < Nat.gcd n.natAbs d := Nat.gcd_pos_of_pos_right _ hd
    exact Nat.div_pos (Nat.le_of_dvd hd (Nat.gcd_dvd_right _ _)) hg⟩

instance : OfNat Q n := ⟨⟨n, 1, Nat.one_pos⟩⟩

/-- Embed an integer. -/
def ofInt (n : Int) : Q := ⟨n, 1, Nat.one_pos⟩

/-- Negation. -/
protected def neg (a : Q) : Q := ⟨-a.num, a.den, a.den_pos⟩

/-- Addition. -/
protected def add (a b : Q) : Q :=
  Q.norm (a.num * b.den + b.num * a.den) (a.den * b.den)
    (Nat.mul_pos a.den_pos b.den_pos)

/-- Subtraction. -/
protected def sub (a b : Q) : Q := Q.add a (Q.neg b)

/-- Multiplication. -/
protected def mul (a b : Q) : Q :=
  Q.norm (a.num * b.num) (a.den * b.den) (Nat.mul_pos a.den_pos b.den_pos)

/-- Division, for a divisor with nonzero numerator (callers guard zero). -/
protected def divQ (a b : Q) : Q :=
  if h : 0 < a.den * b.num.natAbs then
    Q.norm (if 0 ≤ b.num then a.num * b.den else -(a.num * b.den))
      (a.den * b.num.natAbs) h
  else 0

/-- Value comparison `a ≤ b` by cross multiplication. -/
def leB (a b : Q) : Bool := decide (a.num * (b.den : Int) ≤ b.num * (a.den : Int))

/-- Value comparison `a < b`. -/
def ltB (a b : Q) : Bool := decide (a.num * (b.den : Int) < b.num * (a.den : Int))

/-- Value equality by cross multiplication (coincides with `=` on the
lowest-terms values the operations produce). -/
def eqB (a b : Q) : Bool := a.num * (b.den : Int) == b.num * (a.den : Int)

/-- Is the value zero? -/
def isZero (a : Q) : Bool := a.num == 0

/-- Floor. -/
def floorI (a : Q) : Int := Int.fdiv a.num a.den

/-- Ceiling. -/
def ceilI (a : Q) : Int := -(Int.fdiv (-a.num) a.den)

/-- Truncation toward zero. -/
def truncI (a : Q) : Int := Int.tdiv a.num a.den

/-- Absolute value. -/
def absQ (a : Q) : Q := ⟨(a.num.natAbs : Int), a.den, a.den_pos⟩

/-- One half (for rounding). -/
def half : Q := ⟨1, 2, by decide⟩

/-- Natural power. -/
def powN (a : Q) : Nat → Q
  | 0 => 1
  | n + 1 => Q.mul (powN a n) a

end Q

/-- Model of a JS number: NaN, -Infinity, +Infinity, or an exact rational
(in place of an IEEE-754 double; exact on the integer inputs used here). -/
inductive JSNum where
  | nan : JSNum
  | ninf : JSNum
  | pinf : JSNum
  | fin : Q → JSNum
deriving DecidableEq, Repr

instance : OfNat JSNum n := ⟨.fin (OfNat.ofNat n)⟩

namespace JSNum

/-- Number.isNaN -/
def isNaNB : JSNum → Bool
  | .nan => true
  | _ => false

/-- JS `x < y` (false whenever an operand is NaN). -/
def jltB : JSNum → JSNum → Bool
  | .nan, _ => false
  | _, .nan => false
  | .ninf, .ninf => false
  | .ninf, _ => true
  | _, .ninf => false
  | .pinf, _ => false
  | .fin _, .pinf => true
  | .fin a, .fin b => Q.ltB a b

/-- JS `x <= y` (false whenever an operand is NaN). -/
def jleB : JSNum → JSNum → Bool
  | .nan, _ => false
  | _, .nan => false
  | .ninf, _ => true
  | _, .ninf => false
  | _, .pinf => true
  | .pinf, .fin _ => false
  | .fin a, .fin b => Q.leB a b

/-- JS strict equality `x === y` on numbers (NaN !== NaN). -/
def jseqB : JSNum → JSNum → Bool
  | .nan, _ => false
  | _, .nan => false
  | .ninf, .ninf => true
  | .pinf, .pinf => true
  | .fin a, .fin b => Q.eqB a b
  | _, _ => false

/-- JS truthiness of a number: NaN and 0 are falsy, all else truthy. -/
def truthy : JSNum → Bool
  | .nan => false
  | .fin q => !q.isZero
  | _ => true

/-- JS `x + y`. -/
def jadd : JSNum → JSNum → JSNum
  | .nan, _ => .nan
  | _, .nan => .nan
  | .pinf, .ninf => .nan
  | .ninf, .pinf => .nan
  | .pinf, _ => .pinf
  | _, .pinf => .pinf
  | .ninf, _ => .ninf
  | _, .ninf => .ninf
  | .fin a, .fin b => .fin (Q.add a b)

/-- JS unary `-x`. -/
def jneg : JSNum → JSNum
  | .nan => .nan
  | .ninf => .pinf
  | .pinf => .ninf
  | .fin a => .fin (Q.neg a)

/-- JS `x - y`. -/
def jsub (x y : JSNum) : JSNum := jadd x (jneg y)

/-- JS `x * y`. -/
def jmul : JSNum → JSNum → JSNum
  | .nan, _ => .nan
  | _, .nan => .nan
  | .pinf, .pinf => .pinf
  | .pinf, .ninf => .ninf
  | .ninf, .pinf => .ninf
  | .ninf, .ninf => .pinf
  | .pinf, .fin b => if b.isZero then .nan else if 0 < b.num then .pinf else .ninf
  | .fin a, .pinf => if a.isZero then .nan else if 0 < a.num then .pinf else .ninf
  | .ninf, .fin b => if b.isZero then .nan else if 0 < b.num then .ninf else .pinf
  | .fin a, .ninf => if a.isZero then .nan else if 0 < a.num then .ninf else .pinf
  | .fin a, .fin b => .fin (Q.mul a b)

/-- JS `x / y` (no signed zero in the model: `q / 0` with `q > 0` is `+∞`). -/
def jdiv : JSNum → JSNum → JSNum
  | .nan, _ => .nan
  | _, .nan => .nan
  | .pinf, .pinf => .nan
  | .pinf, .ninf => .nan
  | .ninf, .pinf => .nan
  | .ninf, .ninf => .nan
  | .pinf, .fin b => if 0 ≤ b.num then .pinf else .ninf
  | .ninf, .fin b => if 0 ≤ b.num then .ninf else .pinf
  | .fin _, .pinf => .fin 0
  | .fin _, .ninf => .fin 0
  | .fin a, .fin b =>
      if b.isZero then (if a.isZero then .nan else if 0 < a.num then .pinf else .ninf)
      else .fin (Q.divQ a b)

/-- JS `x % y` (remainder with the sign of the dividend). -/
def jmod : JSNum → JSNum → JSNum
  | .nan, _ => .nan
  | _, .nan => .nan
  | .pinf, _ => .nan
  | .ninf, _ => .nan
  | .fin a, .pinf => .fin a
  | .fin a, .ninf => .fin a
  | .fin a, .fin b =>
      if b.isZero then .nan
      else .fin (Q.sub a (Q.mul (Q.ofInt (Q.truncI (Q.divQ a b))) b))

/-- Coerce a JS boolean to a number (the source's `+` prefix on booleans). -/
def ofBool (b : Bool) : JSNum := .fin (if b then 1 else 0)

/-- Math.floor -/
def jfloor : JSNum → JSNum
  | .nan => .nan
  | .ninf => .ninf
  | .pinf => .pinf
  | .fin q => .fin (Q.ofInt q.floorI)

/-- Math.ceil -/
def jceil : JSNum → JSNum
  | .nan => .nan
  | .ninf => .ninf
  | .pinf => .pinf
  | .fin q => .fin (Q.ofInt q.ceilI)

/-- Math.trunc -/
def jtrunc : JSNum → JSNum
  | .nan => .nan
  | .ninf => .ninf
  | .pinf => .pinf
  | .fin q => .fin (Q.ofInt q.truncI)

/-- Math.round (half-up, like JS). -/
def jround : JSNum → JSNum
  | .nan => .nan
  | .ninf => .ninf
  | .pinf => .pinf
  | .fin q => .fin (Q.ofInt (Q.floorI (Q.add q Q.half)))

/-- Math.abs -/
def jabs : JSNum → JSNum
  | .nan => .nan
  | .ninf => .pinf
  | .pinf => .pinf
  | .fin q => .fin q.absQ

/-- Math.sign (no signed zero in the model). -/
def jsign : JSNum → JSNum
  | .nan => .nan
  | .ninf => .fin (Q.ofInt (-1))
  | .pinf => .fin 1
  | .fin q => .fin (if q.num < 0 then Q.ofInt (-1) else if q.num = 0 then 0 else 1)

/-- Math.min of two numbers (NaN-contaminating). -/
def jsMin2 (x y : JSNum) : JSNum :=
  if x.isNaNB || y.isNaNB then .nan else if jleB x y then x else y

/-- Math.max of two numbers (NaN-contaminating). -/
def jsMax2 (x y : JSNum) : JSNum :=
  if x.isNaNB || y.isNaNB then .nan else if jleB y x then x else y

/-- Number.isInteger (on the lowest-terms values the model produces). -/
def isIntB : JSNum → Bool
  | .fin q => q.den == 1
  | _ => false

/-- Number.isSafeInteger -/
def isSafeIntB : JSNum → Bool
  | .fin q => q.den == 1 && q.num.natAbs ≤ 2 ^ 53 - 1
  | _ => false

/-- Number.isFinite -/
def isFiniteB : JSNum → Bool
  | .fin _ => true
  | _ => false

end JSNum

/-- Structured model of the errors thrown by `xex.js`.  Each constructor keeps
the data of the corresponding `ExpressionError` message (message texts are in
the source); `frozenWrite` models the strict-mode `TypeError` raised when
assigning to a property of an `Object.freeze`-d object; `fuel` is the
model-internal fuel-exhaustion marker (never reached by the entry points). -/
inductive Err where
  | fuel : Err
  /-- "Unrecognized character '0x…'" at an input offset. -/
  | unrecognizedChar : Nat → Nat → Err
  /-- "Unexpected token '…'" (position is `-1` for the `<end>` token). -/
  | unexpectedToken : String → Int → Err
  /-- "Function … not defined" -/
  | funcNotDefined : String → Nat → Err
  /-- "Variable … cannot be used as function" -/
  | varAsFunc : String → Nat → Err
  /-- "Function … cannot be used as variable" -/
  | funcAsVar : String → Nat → Err
  /-- "Variable … is not on the whitelist" -/
  | notOnWhitelist : String → Nat → Err
  /-- "Function '…' accepts N argument(s), M provided" -/
  | argCountExact : String → Nat → Nat → Err
  /-- "Function '…' accepts N to M argument(s), K provided" -/
  | argCountRange : String → Nat → Nat → Err
  /-- "Invalid state" -/
  | invalidState : Err
  /-- "Argument 'args' must be an array, not '…'" (carries `typeof args`). -/
  | notArray : String → Err
  /-- "Variable '…' provided multiple times" -/
  | dupCompileVar : String → Err
  /-- "Variable '…' used, but no mapping provided" -/
  | varNoMapping : String → Err
  /-- "Argument 'input' must be a string, not '…'" -/
  | inputNotString : String → Err
  /-- "Environment is frozen" -/
  | envFrozen : Err
  /-- "Identifier '…' already defined" -/
  | alreadyDefined : String → Err
  /-- "Type '…' not recognized" -/
  | typeNotRecognized : String → Err
  /-- "Node '…' not recognized" -/
  | nodeNotRecognized : String → Err
  /-- Strict-mode TypeError: assignment to a read-only property of a frozen
  object (e.g. "Cannot assign to read only property 'frozen'"). -/
  | frozenWrite : Err
deriving DecidableEq, Repr

/-- Token type constants `kTokenPunct` / `kTokenIdent` / `kTokenValue` of the
source (the `kTokenNone` sentinel `NoToken` is modelled by `Option.none`). -/
inductive TokType where
  | punct
  | ident
  | value
deriving DecidableEq, Repr

/-- A token produced by `Parser.tokenize`.  The `value` field is only
meaningful for `value` tokens (the source stores `null` otherwise, modelled
here as `JSNum.nan`; it is never read for other token types). -/
structure Token where
  type : TokType
  position : Nat
  data : String
  value : JSNum
deriving DecidableEq, Repr

/-- Character categories of the source's classification table. -/
inductive Cat where
  | none
  | space
  | alpha
  | digit
  | punct
deriving DecidableEq, Repr

/-- The source's `Category` lookup table, as a function on the char code:
9–13 and 32 are space; 48–57 digits; 65–90, 95, 97–122 alpha;
33–47, 58–64, 91–94, 96, 123–126 punctuation; everything else invalid. -/
def Category (c : Nat) : Cat :=
  if 9 ≤ c ∧ c ≤ 13 then .space
  else if c = 32 then .space
  else if 48 ≤ c ∧ c ≤ 57 then .digit
  else if 65 ≤ c ∧ c ≤ 90 then .alpha
  else if c = 95 then .alpha
  else if 97 ≤ c ∧ c ≤ 122 then .alpha
  else if 33 ≤ c ∧ c ≤ 47 then .punct
  else if 58 ≤ c ∧ c ≤ 64 then .punct
  else if 91 ≤ c ∧ c ≤ 94 then .punct
  else if c = 96 then .punct
  else if 123 ≤ c ∧ c ≤ 126 then .punct
  else .none

/-- Maximal run of decimal digits of `s` starting at index `i` (the regex
fragment `\d*` with greedy matching). -/
def digitsFrom (s : List Char) (i : Nat) : List Char :=
  (s.drop i).takeWhile (fun c => Category c.toNat == Cat.digit)

/-- The mantissa alternative `\\d*\\.\\d+|\\d+` of the numeric-literal regex at
position `i` of `s` (greedy, left alternative first; empty when there is no
match at `i`). -/
def mantissaAt (s : List Char) (i : Nat) : List Char :=
  let d1 := digitsFrom s i
  match s.get? (i + d1.length) with
  | some '.' =>
      let d2 := digitsFrom s (i + d1.length + 1)
      if d2.isEmpty then d1 else d1 ++ '.' :: d2
  | _ => d1

/-- The optional exponent part `[E|e][+|-]?\\d+` of the numeric-literal regex
at position `k` (the character classes `[E|e]` and `[+|-]` of the source
contain a literal `|`, faithfully kept); empty when the exponent does not
match (the regex then backtracks out of the optional group). -/
def expPartAt (s : List Char) (k : Nat) : List Char :=
  match s.get? k with
  | some e =>
      if e = 'E' ∨ e = 'e' ∨ e = '|' then
        match s.get? (k + 1) with
        | some sgn =>
            if sgn = '+' ∨ sgn = '|' ∨ sgn = '-' then
              let d3 := digitsFrom s (k + 2)
              if d3.isEmpty then [] else e :: sgn :: d3
            else
              let d3 := digitsFrom s (k + 1)
              if d3.isEmpty then [] else e :: d3
        | none => []
      else []
  | none => []

/-- Match of the source's numeric-literal regex
`(?:(?:\\d*\\.\\d+|\\d+)(?:[E|e][+|-]?\\d+)?)` at position `i` of `s`: the
greedy mantissa followed by the optional exponent.  Returns the matched
characters (`[]` when there is no match at `i`; the tokenizer only reaches
this with a digit at `i`, or after backtracking with `.` at `i` followed by
a digit, so the match is then never empty). -/
def matchValue (s : List Char) (i : Nat) : List Char :=
  let m := mantissaAt s i
  m ++ expPartAt s (i + m.length)

/-- Numeric value of a run of decimal digits. -/
def digitsVal (cs : List Char) : Nat :=
  cs.foldl (fun n c => n * 10 + (c.toNat - 48)) 0

/-- JS `parseFloat` on the strings produced by `matchValue`: longest valid
decimal prefix `digits ['.' digits] [('e'|'E') ['+'|'-'] digits]`, evaluated
exactly over ℚ (JS rounds to the nearest double; the claims below only use
exactly representable values).  Returns NaN when no digits are present. -/
def jsParseFloat (cs : List Char) : JSNum :=
  let a := cs.takeWhile (fun c => Category c.toNat == Cat.digit)
  let r1 := cs.drop a.length
  let b : List Char := match r1 with
    | '.' :: t => t.takeWhile (fun c => Category c.toNat == Cat.digit)
    | _ => []
  let r2 := match r1 with
    | '.' :: _ => r1.drop (1 + b.length)
    | _ => r1
  if a.isEmpty ∧ b.isEmpty then .nan
  else
    let blen := b.length
    let mNum : Nat := digitsVal a * 10 ^ blen + digitsVal b
    let mDen : Nat := 10 ^ blen
    have hden : 0 < mDen := Nat.pos_pow_of_pos blen (by decide)
    match r2 with
    | e :: rest =>
        if e = 'e' ∨ e = 'E' then
          let p : Bool × List Char := match rest with
            | '+' :: t => (false, t.takeWhile (fun c => Category c.toNat == Cat.digit))
            | '-' :: t => (true, t.takeWhile (fun c => Category c.toNat == Cat.digit))
            | t => (false, t.takeWhile (fun c => Category c.toNat == Cat.digit))
          if p.2.isEmpty then .fin (Q.norm mNum mDen hden)
          else if p.1 then
            .fin (Q.norm mNum (mDen * 10 ^ digitsVal p.2)
              (Nat.mul_pos hden (Nat.pos_pow_of_pos _ (by decide))))
          else .fin (Q.norm (mNum * 10 ^ digitsVal p.2) mDen hden)
        else .fin (Q.norm mNum mDen hden)
    | [] => .fin (Q.norm mNum mDen hden)

/-- Definition kinds stored in the registry (`def.type` in the source). -/
inductive DefType where
  | constant
  | operator
  | function
deriving DecidableEq, Repr

/-- Argument-count bound: a natural number or `Infinity` (the source stores a
JS number which is always a natural or `Infinity`). -/
inductive Arity where
  | fin : Nat → Arity
  | inf : Arity
deriving DecidableEq, Repr

/-- A frozen registry definition object.  Fields that are absent on some JS
definition objects (e.g. `args` on constants) are modelled by their JS
behaviour-equivalent defaults and are never read for those kinds. -/
structure Def where
  type : DefType
  name : String
  value : JSNum
  args : Nat
  amax : Arity
  prec : Nat
  rtl : Bool
  safe : Bool
  eval : List JSNum → JSNum
  emit : String

/-- Apply a JS callback of one declared parameter to an argument list
(missing arguments are `undefined`, which behaves as NaN in these callbacks). -/
def fn1 (f : JSNum → JSNum) : List JSNum → JSNum
  | [] => f .nan
  | x :: _ => f x

/-- Apply a JS callback of two declared parameters to an argument list. -/
def fn2 (f : JSNum → JSNum → JSNum) : List JSNum → JSNum
  | [] => f .nan .nan
  | [x] => f x .nan
  | x :: y :: _ => f x y

/-- The source's `accessProp` identifier test `/^[A-Za-z_\$][\w\$]*$/`. -/
def isIdentLike (s : String) : Bool :=
  match s.data with
  | [] => false
  | c :: rest =>
      (c.isAlpha || c = '_' || c = '$') &&
      rest.all (fun d => d.isAlpha || d.isDigit || d = '_' || d = '$')

/-- The source's `accessProp`: property access text for a name. -/
def accessProp (name : String) : String :=
  if isIdentLike name then "." ++ name
  else "[" ++ "\"" ++ name ++ "\"" ++ "]"

/-- The `Environment` registry: `lang` maps names to definitions, `func` maps
names to native callbacks.  JS object tables are modelled by insertion-ordered
association lists with unique keys.  The `frozen` flag stands both for the
source's `this.frozen` property and for the `Object.freeze(this)` state, which
coincide in every state reachable through the public API. -/
structure Environment where
  lang : List (String × Def)
  func : List (String × (List JSNum → JSNum))
  frozen : Bool

/-- `new Environment()`. -/
def Environment.new : Environment := ⟨[], [], false⟩

/-- `Environment.get`: `this.lang[name] || null`. -/
def Environment.get (env : Environment) (name : String) : Option Def :=
  env.lang.lookup name

/-- `Environment.clone`: a fresh environment whose `lang` and `func` tables
are copied (`Object.assign` onto fresh objects); the clone is not frozen. -/
def Environment.clone (env : Environment) : Environment :=
  ⟨env.lang, env.func, false⟩

/-- `Environment.freeze`.  The source runs (in strict mode – class methods are
always strict) `freeze(this.lang); freeze(this.func); this.frozen = true;
return freeze(this);`.  After a first call, `freeze(this)` has made the
`frozen` property read-only, so a second call's `this.frozen = true` raises a
strict-mode `TypeError`; the two `freeze` calls before it succeed silently and
change nothing. -/
def Environment.freeze (env : Environment) : Except Err Environment :=
  if env.frozen then .error .frozenWrite
  else .ok { env with frozen := true }

/-- `Environment.add`: fails when frozen or when the name is already defined;
registers operators and functions also in the `func` table (the source's
`Operator` case falls through into the `Function` case).  The `typeof` checks
on individual fields always pass in this typed model. -/
def Environment.add (env : Environment) (d : Def) : Except Err Environment :=
  if env.frozen then .error .envFrozen
  else if (env.lang.lookup d.name).isSome then .error (.alreadyDefined d.name)
  else match d.type with
    | .constant => .ok { env with lang := env.lang ++ [(d.name, d)] }
    | .operator =>
        .ok { env with lang := env.lang ++ [(d.name, d)],
                       func := env.func ++ [(d.name, d.eval)] }
    | .function =>
        .ok { env with lang := env.lang ++ [(d.name, d)],
                       func := env.func ++ [(d.name, d.eval)] }

/-- `Environment.del`: fails when frozen, removes the name from both tables. -/
def Environment.del (env : Environment) (name : String) : Except Err Environment :=
  if env.frozen then .error .envFrozen
  else .ok { env with lang := env.lang.filter (fun p => p.1 != name),
                      func := env.func.filter (fun p => p.1 != name) }

/-- `Environment.addConstant` (object form). -/
def Environment.addConstant (env : Environment) (name : String) (value : JSNum) :
    Except Err Environment :=
  env.add { type := .constant, name := name, value := value, args := 0,
            amax := .fin 0, prec := 0, rtl := false, safe := true,
            eval := fun _ => .nan, emit := "" }

/-- `Environment.addUnary`: registers `"unary" + name` with `args = amax = 1`;
`emit` defaults to `$<accessProp name>(@1)`. -/
def Environment.addUnary (env : Environment) (name : String) (prec : Nat)
    (rtl : Bool) (safe : Bool) (ev : List JSNum → JSNum) (emit : Option String) :
    Except Err Environment :=
  env.add { type := .operator, name := "unary" ++ name, value := .nan, args := 1,
            amax := .fin 1, prec := prec, rtl := rtl, safe := safe, eval := ev,
            emit := emit.getD ("$" ++ accessProp name ++ "(@1)") }

/-- `Environment.addBinary`: registers `name` with `args = amax = 2`;
`emit` defaults to `$<accessProp name>(@1, @2)`. -/
def Environment.addBinary (env : Environment) (name : String) (prec : Nat)
    (rtl : Bool) (safe : Bool) (ev : List JSNum → JSNum) (emit : Option String) :
    Except Err Environment :=
  env.add { type := .operator, name := name, value := .nan, args := 2,
            amax := .fin 2, prec := prec, rtl := rtl, safe := safe, eval := ev,
            emit := emit.getD ("$" ++ accessProp name ++ "(@1, @2)") }

/-- `Environment.addFunction`: `amax` defaults to `args` when absent;
`prec = 0`, `rtl = false`; `emit` defaults to `$<accessProp name>(@args)`. -/
def Environment.addFunction (env : Environment) (name : String) (args : Nat)
    (amax : Option Arity) (safe : Bool) (ev : List JSNum → JSNum)
    (emit : Option String) : Except Err Environment :=
  env.add { type := .function, name := name, value := .nan, args := args,
            amax := amax.getD (.fin args), prec := 0, rtl := false, safe := safe,
            eval := ev, emit := emit.getD ("$" ++ accessProp name ++ "(@args)") }

/-- `frac(x) = x - Math.floor(x)` (source helper). -/
def fracFn (x : JSNum) : JSNum := JSNum.jsub x (JSNum.jfloor x)

/-- `isinf(x) = +(x === Infinity || x === -Infinity)` (source helper). -/
def isinfFn (x : JSNum) : JSNum :=
  JSNum.ofBool (JSNum.jseqB x .pinf || JSNum.jseqB x .ninf)

/-- `bineq(x, y) = +(x === y || (isNaN x && isNaN y))` (source helper,
registered as the `~=` operator). -/
def bineq (x y : JSNum) : JSNum :=
  JSNum.ofBool (JSNum.jseqB x y || (x.isNaNB && y.isNaNB))

/-- Boolean form of `bineq`. -/
def bineqB (x y : JSNum) : Bool :=
  JSNum.jseqB x y || (x.isNaNB && y.isNaNB)

/-- The source's `minmaxval(op)` combinator: skip leading NaN arguments, then
fold `op` over the remaining non-NaN ones; NaN when all arguments are NaN. -/
def minmaxval (op : JSNum → JSNum → JSNum) (args : List JSNum) : JSNum :=
  match args.dropWhile JSNum.isNaNB with
  | [] => .nan
  | x :: rest => rest.foldl (fun a y => if y.isNaNB then a else op a y) x

/-- Variadic `Math.min` (NaN-contaminating; `Infinity` on no arguments). -/
def jsMinList (args : List JSNum) : JSNum := args.foldl JSNum.jsMin2 .pinf

/-- Variadic `Math.max` (NaN-contaminating; `-Infinity` on no arguments). -/
def jsMaxList (args : List JSNum) : JSNum := args.foldl JSNum.jsMax2 .ninf

/-- Placeholder for host `Math` callbacks whose real-number semantics (sqrt,
cbrt, exp, expm1, log, log2, log10, the trigonometric and hyperbolic family,
pow, atan2, hypot) are not representable over ℚ.  They are registered so that
the registry's names, kinds, arities and metadata are exact; no claim in this
file evaluates any of them. -/
def hostFn (_name : String) : List JSNum → JSNum := fun _ => .nan

/-- The exact rational value of the IEEE-754 double `Math.PI`. -/
def mathPI : Q := ⟨884279719003555, 281474976710656, by decide⟩

/-- The base registry construction of `xex.js` lines 806–864: the exact chain
of `addConstant`/`addUnary`/`addBinary`/`addFunction` calls building the
module's default environment (the chain never fails; see `baseEnvE_ok`). -/
def baseEnvE : Except Err Environment := do
  let e := Environment.new
  let e ← e.addConstant "Infinity" .pinf
  let e ← e.addConstant "NaN" .nan
  let e ← e.addConstant "PI" (.fin mathPI)
  let e ← e.addUnary "-" 3 true true (fn1 JSNum.jneg) (some "-(@1)")
  let e ← e.addUnary "!" 3 true true
            (fn1 (fun v => JSNum.ofBool (!v.truthy))) (some "+!(@1)")
  let e ← e.addBinary "+" 6 false true (fn2 JSNum.jadd) (some "@1 + @2")
  let e ← e.addBinary "-" 6 false true (fn2 JSNum.jsub) (some "@1 - @2")
  let e ← e.addBinary "*" 5 false true (fn2 JSNum.jmul) (some "@1 * @2")
  let e ← e.addBinary "/" 5 false true (fn2 JSNum.jdiv) (some "@1 / @2")
  let e ← e.addBinary "%" 5 false true (fn2 JSNum.jmod) (some "@1 % @2")
  let e ← e.addBinary "&&" 13 false true
            (fn2 (fun x y => if x.truthy then y else x)) (some "+(@1 && @2)")
  let e ← e.addBinary "||" 14 false true
            (fn2 (fun x y => if x.truthy then x else y)) (some "+(@1 || @2)")
  let e ← e.addBinary "==" 9 false true
            (fn2 (fun x y => JSNum.ofBool (JSNum.jseqB x y))) (some "+(@1 === @2)")
  let e ← e.addBinary "!=" 9 false true
            (fn2 (fun x y => JSNum.ofBool (!JSNum.jseqB x y))) (some "+(@1 !== @2)")
  let e ← e.addBinary "~=" 9 false true (fn2 bineq) none
  let e ← e.addBinary "<" 8 false true
            (fn2 (fun x y => JSNum.ofBool (JSNum.jltB x y))) (some "+(@1 < @2)")
  let e ← e.addBinary "<=" 8 false true
            (fn2 (fun x y => JSNum.ofBool (JSNum.jleB x y))) (some "+(@1 <= @2)")
  let e ← e.addBinary ">" 8 false true
            (fn2 (fun x y => JSNum.ofBool (JSNum.jltB y x))) (some "+(@1 > @2)")
  let e ← e.addBinary ">=" 8 false true
            (fn2 (fun x y => JSNum.ofBool (JSNum.jleB y x))) (some "+(@1 >= @2)")
  let e ← e.addFunction "isinf" 1 none true (fn1 isinfFn) none
  let e ← e.addFunction "isint" 1 none true
            (fn1 (fun x => JSNum.ofBool x.isIntB)) (some "+Number.isInteger(@1)")
  let e ← e.addFunction "issafeint" 1 none true
            (fn1 (fun x => JSNum.ofBool x.isSafeIntB)) (some "+Number.isSafeInteger(@1)")
  let e ← e.addFunction "isnan" 1 none true
            (fn1 (fun x => JSNum.ofBool x.isNaNB)) (some "+Number.isNaN(@1)")
  let e ← e.addFunction "isfinite" 1 none true
            (fn1 (fun x => JSNum.ofBool x.isFiniteB)) (some "+Number.isFinite(@1)")
  let e ← e.addFunction "abs" 1 none true (fn1 JSNum.jabs) none
  let e ← e.addFunction "sign" 1 none true (fn1 JSNum.jsign) none
  let e ← e.addFunction "round" 1 none true (fn1 JSNum.jround) none
  let e ← e.addFunction "trunc" 1 none true (fn1 JSNum.jtrunc) none
  let e ← e.addFunction "floor" 1 none true (fn1 JSNum.jfloor) none
  let e ← e.addFunction "ceil" 1 none true (fn1 JSNum.jceil) none
  let e ← e.addFunction "frac" 1 none true (fn1 fracFn) none
  let e ← e.addFunction "sqrt" 1 none true (hostFn "sqrt") none
  let e ← e.addFunction "cbrt" 1 none true (hostFn "cbrt") none
  let e ← e.addFunction "exp" 1 none true (hostFn "exp") none
  let e ← e.addFunction "expm1" 1 none true (hostFn "expm1") none
  let e ← e.addFunction "log" 1 none true (hostFn "log") none
  let e ← e.addFunction "log2" 1 none true (hostFn "log2") none
  let e ← e.addFunction "log10" 1 none true (hostFn "log10") none
  let e ← e.addFunction "sin" 1 none true (hostFn "sin") none
  let e ← e.addFunction "sinh" 1 none true (hostFn "sinh") none
  let e ← e.addFunction "cos" 1 none true (hostFn "cos") none
  let e ← e.addFunction "cosh" 1 none true (hostFn "cosh") none
  let e ← e.addFunction "tan" 1 none true (hostFn "tan") none
  let e ← e.addFunction "tanh" 1 none true (hostFn "tanh") none
  let e ← e.addFunction "asin" 1 none true (hostFn "asin") none
  let e ← e.addFunction "asinh" 1 none true (hostFn "asinh") none
  let e ← e.addFunction "acos" 1 none true (hostFn "acos") none
  let e ← e.addFunction "acosh" 1 none true (hostFn "acosh") none
  let e ← e.addFunction "atan" 1 none true (hostFn "atan") none
  let e ← e.addFunction "atanh" 1 none true (hostFn "atanh") none
  let e ← e.addFunction "min" 2 (some .inf) true jsMinList none
  let e ← e.addFunction "minval" 2 (some .inf) true (minmaxval JSNum.jsMin2) none
  let e ← e.addFunction "max" 2 (some .inf) true jsMaxList none
  let e ← e.addFunction "maxval" 2 (some .inf) true (minmaxval JSNum.jsMax2) none
  let e ← e.addFunction "pow" 2 (some (.fin 2)) true (hostFn "pow") none
  let e ← e.addFunction "atan2" 2 (some (.fin 2)) true (hostFn "atan2") none
  let e ← e.addFunction "hypot" 2 (some (.fin 2)) true (hostFn "hypot") none
  pure e

/-- The default environment exported as the `xex` module object (extracted
from `baseEnvE`, which succeeds; see `baseEnvE_ok`). -/
def xexEnv : Environment :=
  match baseEnvE with
  | .ok e => e
  | .error _ => Environment.new

/-- Data of the last token of a list (`tokens[tokens.length - 1].data`);
`""` when the list is empty (the source then skips the check via `n >= 0`). -/
def lastData (ts : List Token) : String :=
  match ts.getLast? with
  | some t => t.data
  | none => ""

/-- `kMaxOperatorLen` of the source. -/
def kMaxOperatorLen : Nat := 4

/-- Substring of `s` of length `j` starting at `start` (`input.substr`). -/
def subStr (s : List Char) (start j : Nat) : String :=
  ⟨(s.drop start).take j⟩

/-- The source's greedy operator resolution inside the punctuation branch:
for `j` from `min(runLen, 4)` down to `1`, accept the first prefix that names
a registry entry, or the single character when none does.  Returns the
accepted token text (always nonempty for `j ≥ 1`). -/
def punctPiece (env : Environment) (s : List Char) (start : Nat) : Nat → String
  | 0 => subStr s start 1
  | 1 => subStr s start 1
  | j + 2 =>
      let part := subStr s start (j + 2)
      if (env.get part).isSome then part
      else punctPiece env s start (j + 1)

/-- The source's inner `do … while (start < i)` loop of the punctuation
branch: repeatedly emit one resolved operator token and advance. -/
def punctLoop (env : Environment) (s : List Char) : Nat → Nat → Nat → List Token
  | 0, _, _ => []
  | fuelp + 1, start, stop =>
      if start < stop then
        let piece := punctPiece env s start (min (stop - start) kMaxOperatorLen)
        Token.mk .punct start piece .nan ::
          punctLoop env s fuelp (start + piece.length) stop
      else []

/-- End index of the maximal run of characters of category `cat` starting at
`i + 1` of `s` (the source's `while (++i < len && Category(…) === …)` scans). -/
def runEnd (s : List Char) (cat : Cat) (i : Nat) : Nat :=
  i + 1 + ((s.drop (i + 1)).takeWhile (fun c => Category c.toNat == cat)).length

/-- The main tokenizer loop of `Parser.tokenize`, one fuel unit per
iteration.  State: current index `i` and the tokens emitted so far. -/
def tokLoop (env : Environment) (s : List Char) :
    Nat → Nat → List Token → Except Err (List Token)
  | 0, _, _ => .error .fuel
  | fuelt + 1, i, ts =>
    match s.get? i with
    | none => .ok ts
    | some c =>
      match Category c.toNat with
      | .space => tokLoop env s fuelt (i + 1) ts
      | .digit =>
          -- Decimal-point backtracking: if the last token is a lone "." that
          -- is the immediately preceding character, discard it and re-scan
          -- the numeric literal from the ".".
          if 0 < i ∧ lastData ts = "." ∧ s.get? (i - 1) = some '.' then
            let m := matchValue s (i - 1)
            tokLoop env s fuelt (i - 1 + m.length)
              (ts.dropLast ++ [Token.mk .value (i - 1) ⟨m⟩ (jsParseFloat m)])
          else
            let m := matchValue s i
            tokLoop env s fuelt (i + m.length)
              (ts ++ [Token.mk .value i ⟨m⟩ (jsParseFloat m)])
      | .alpha =>
          -- identifiers continue with alpha or digit characters
          let stop := i + 1 + ((s.drop (i+1)).takeWhile
            (fun c => Category c.toNat == Cat.alpha || Category c.toNat == Cat.digit)).length
          tokLoop env s fuelt stop
            (ts ++ [Token.mk .ident i (subStr s i (stop - i)) .nan])
      | .punct =>
          let stop := runEnd s .punct i
          tokLoop env s fuelt stop (ts ++ punctLoop env s (stop - i) i stop)
      | .none => .error (.unrecognizedChar c.toNat i)

/-- `Parser.tokenize`: run the tokenizer loop over the whole input (each
iteration advances by at least one character, so `length + 1` fuel always
suffices). -/
def tokenize (env : Environment) (input : String) : Except Err (List Token) :=
  tokLoop env input.data (input.length + 1) 0 []

/-- AST node.  In the source a "node" position holds either a plain JS number
(`val` here, the source's `isValue` test `typeof node === "number"`) or one of
the object node shapes.  The `cond` constructor is *modelled from the spec*:
the dedicated 3-ary ternary-conditional node (spec §4.4) is absent from
`src/xex.js` v0.0.2 (only the repository's README and tests mention it). -/
inductive Node where
  | val : JSNum → Node
  | var : String → Node
  | unary : String → Def → Node → Node
  | binary : String → Def → Node → Node → Node
  | call : String → Def → List Node → Node
  | cond : Node → Node → Node → Node

/-- The source's `isValue`: is this node position a plain number? -/
def isVal : Node → Bool
  | .val _ => true
  | _ => false

/-- Numeric content of a `val` node (only read under `isVal`). -/
def getVal : Node → JSNum
  | .val v => v
  | _ => .nan

/-- A substitution map passed to `fold` (`cmap`); the values substituted for
variables are numbers (spec §4.5: `Literal(substitutions[name])`). -/
abbrev Cmap := List (String × JSNum)

mutual

/-- `Expression.$onNodeFold`: bottom-up constant folding.  Returns the new
node and whether any rewrite happened (the source instead sets the shared
`this.dirty` flag).  The `cond` case is *modelled from the spec* (§4.5): fold
the condition; if it is now a literal, fold and keep only the selected branch;
otherwise fold both branches and keep the conditional shape. -/
def foldNode (cmap : Option Cmap) : Node → Node × Bool
  | .val v => (.val v, false)
  | .var name =>
      match cmap with
      | some m =>
          match m.lookup name with
          | some v => (.val v, true)
          | none => (.var name, false)
      | none => (.var name, false)
  | .unary name info v =>
      let r := foldNode cmap v
      if info.safe && isVal r.1 then (.val (info.eval [getVal r.1]), true)
      else (.unary name info r.1, r.2)
  | .binary name info l r =>
      let rl := foldNode cmap l
      let rr := foldNode cmap r
      if info.safe && isVal rl.1 && isVal rr.1 then
        (.val (info.eval [getVal rl.1, getVal rr.1]), true)
      else (.binary name info rl.1 rr.1, rl.2 || rr.2)
  | .call name info args =>
      let rs := foldArgs cmap args
      if info.safe && (rs.map Prod.fst).all isVal then
        (.val (info.eval ((rs.map Prod.fst).map getVal)), true)
      else (.call name info (rs.map Prod.fst), (rs.map Prod.snd).any id)
  | .cond c t e =>
      let rc := foldNode cmap c
      if isVal rc.1 then
        if (getVal rc.1).truthy then ((foldNode cmap t).1, true)
        else ((foldNode cmap e).1, true)
      else
        let rt := foldNode cmap t
        let re := foldNode cmap e
        (.cond rc.1 rt.1 re.1, rc.2 || rt.2 || re.2)

/-- Fold every argument of a `Call` node in order. -/
def foldArgs (cmap : Option Cmap) : List Node → List (Node × Bool)
  | [] => []
  | a :: rest => foldNode cmap a :: foldArgs cmap rest

end

/-- The source's `rightAssociate(info, bPrec)`. -/
def rightAssociate (info : Def) (bPrec : Nat) : Bool :=
  info.prec > bPrec || (info.prec == bPrec && info.rtl)

/-- A binary node on the parser's pending stack whose `right` child is not
yet assigned (the source mutably links stack entries; here the link to the
entry above is implicit: each frame's `right` is the tree being built). -/
structure Frame where
  name : String
  info : Def
  left : Node

/-- A fully assigned binary node, kept unpacked so the parser can re-wire
its `right` child (the source mutates `aNode.right`). -/
structure BAcc where
  name : String
  info : Def
  left : Node
  right : Node

/-- Pack a `BAcc` into a `Node`. -/
def BAcc.toNode (A : BAcc) : Node := .binary A.name A.info A.left A.right

/-- The source's `while (stack.length) { if (rightAssociate(aNode.info,
bPrec)) break; aNode = stack.pop(); }` walk: complete popped frames into the
accumulated tree until an entry right-associates with `bPrec` (stack head is
its top). -/
def popLoop : List Frame → BAcc → Nat → List Frame × BAcc
  | [], A, _ => ([], A)
  | f :: fs, A, bPrec =>
      if rightAssociate A.info bPrec then (f :: fs, A)
      else popLoop fs ⟨f.name, f.info, f.left, A.toNode⟩ bPrec

/-- One binary-operator step of `parseExpression`: given the pending-operator
stack (head = top), the value just parsed and the operator `b`, return the new
stack (lines 528–568 of the source). -/
def binStep (stack : List Frame) (v : Node) (bName : String) (bInfo : Def) :
    List Frame :=
  match stack with
  | [] => [⟨bName, bInfo, v⟩]
  | a :: rest =>
      if a.info.prec > bInfo.prec then
        -- aNode.right = bNode; bNode.left = value; push(aNode, bNode)
        ⟨bName, bInfo, v⟩ :: a :: rest
      else
        let A : BAcc := ⟨a.name, a.info, a.left, v⟩   -- aNode.right = value
        let p := popLoop rest A bInfo.prec
        if p.1.isEmpty && !rightAssociate p.2.info bInfo.prec then
          -- bNode.left = aNode; push(bNode)
          [⟨bName, bInfo, p.2.toNode⟩]
        else
          -- tmp = aNode.right; aNode.right = bNode; bNode.left = tmp;
          -- push(aNode, bNode)
          ⟨bName, bInfo, p.2.right⟩ :: ⟨p.2.name, p.2.info, p.2.left⟩ :: p.1

/-- End-of-expression assembly: `stack[stack.length-1].right = value; return
stack[0]` — fill the pending `right` slots from the top of the stack down. -/
def assemble (stack : List Frame) (v : Node) : Node :=
  stack.foldl (fun t f => Node.binary f.name f.info f.left t) v

/-- Parse options (`noFolding`, `varsWhitelist`). -/
structure Options where
  noFolding : Bool
  varsWhitelist : Option (List String)

/-- The default options (no options object passed). -/
def Options.default : Options := ⟨false, none⟩

/-- Data of the lookahead token (`this.peek().data`; `"<end>"` for
`NoToken`). -/
def peekData : List Token → String
  | [] => "<end>"
  | t :: _ => t.data

/-- Position of the lookahead token (`-1` for `NoToken`). -/
def peekPos : List Token → Int
  | [] => -1
  | t :: _ => (t.position : Int)

/-- A parsing function: consumes tokens, returns a node and the remainder. -/
abbrev ParseFn := List Token → Except Err (Node × List Token)

/-- The leading unary-operator chain of one `parseExpression` iteration:
collect consecutive punctuation tokens that resolve as `"unary" + data` in
the registry, in source order (first = outermost). -/
def parseUnaryChain (env : Environment) : List Token →
    List (String × Def) × List Token
  | [] => ([], [])
  | tok :: rest =>
      if tok.type == .punct then
        match env.get ("unary" ++ tok.data) with
        | some info =>
            let r := parseUnaryChain env rest
            (("unary" ++ tok.data, info) :: r.1, r.2)
        | none => ([], tok :: rest)
      else ([], tok :: rest)

/-- The argument-list loop of `parseCall`: `)` ends the list; after the first
argument each further one must be preceded by `,`; arguments are parsed by
`pe`. -/
def parseArgsLoop (pe : ParseFn) :
    Nat → List Node → List Token → Except Err (List Node × List Token)
  | 0, _, _ => .error .fuel
  | fuela + 1, args, ts =>
      if peekData ts = ")" then .ok (args, ts.drop 1)
      else do
        let ts₁ ←
          if args.length != 0 then
            if peekData ts = "," then pure (ts.drop 1)
            else .error (.unexpectedToken (peekData ts) (peekPos ts))
          else pure ts
        let r ← pe ts₁
        parseArgsLoop pe fuela (args ++ [r.1]) r.2

/-- `Parser.parseCall`: consume `(`, parse the comma-separated argument list,
then validate the count against `[args, amax]`, with the exact/range error
distinction of the source. -/
def parseCall (pe : ParseFn) (funcTok : Token) (info : Def)
    (ts : List Token) : Except Err (Node × List Token) := do
  match ts with
  | [] => .error (.unexpectedToken "<end>" (-1))
  | tok :: r =>
      if tok.data != "(" then .error (.unexpectedToken tok.data tok.position)
      else do
        let a ← parseArgsLoop pe (r.length + 1) [] r
        let ok : Bool := a.1.length ≥ info.args &&
          (match info.amax with
           | .fin m => a.1.length ≤ m
           | .inf => true)
        if ok then .ok (.call funcTok.data info a.1, a.2)
        else if (match info.amax with | .fin m => info.args == m | .inf => false) then
          .error (.argCountExact funcTok.data info.args a.1.length)
        else
          .error (.argCountRange funcTok.data info.args a.1.length)

/-- The head of one `parseExpression` iteration: the unary-operator chain
followed by a value, constant, variable, function call or parenthesized
sub-expression (`pe` parses nested sub-expressions). -/
def parsePrimary (env : Environment) (opts : Options) (pe : ParseFn)
    (ts : List Token) : Except Err (Node × List Token) :=
  let u := parseUnaryChain env ts
  let wrap := fun (v : Node) =>
    u.1.foldr (fun ni acc => Node.unary ni.1 ni.2 acc) v
  match u.2 with
  | [] => .error (.unexpectedToken "<end>" (-1))
  | tok :: r =>
      if tok.type == .value then .ok (wrap (.val tok.value), r)
      else if tok.type == .ident then
        let name := tok.data
        let info? := env.get name
        if peekData r = "(" then
          match info? with
          | none => .error (.funcNotDefined name tok.position)
          | some info =>
              if info.type != .function then .error (.varAsFunc name tok.position)
              else do
                let c ← parseCall pe tok info r
                .ok (wrap c.1, c.2)
        else
          match info? with
          | some info =>
              if info.type == .function then .error (.funcAsVar name tok.position)
              else if info.type == .constant then .ok (wrap (.val info.value), r)
              else
                match opts.varsWhitelist with
                | some wl =>
                    if name ∈ wl then .ok (wrap (.var name), r)
                    else .error (.notOnWhitelist name tok.position)
                | none => .ok (wrap (.var name), r)
          | none =>
              match opts.varsWhitelist with
              | some wl =>
                  if name ∈ wl then .ok (wrap (.var name), r)
                  else .error (.notOnWhitelist name tok.position)
              | none => .ok (wrap (.var name), r)
      else if tok.data == "(" then do
        let v ← pe r
        match v.2 with
        | [] => .error (.unexpectedToken "<end>" (-1))
        | t2 :: r₂ =>
            if t2.data == ")" then .ok (wrap v.1, r₂)
            else .error (.unexpectedToken t2.data t2.position)
      else .error (.unexpectedToken tok.data tok.position)

/-- The `for (;;)` loop of `parseExpression`: parse a primary, then either
consume a binary operator (a punctuation token that names a registry entry)
and loop with the updated pending stack, or assemble and return. -/
def binIter (env : Environment) (opts : Options) (pe : ParseFn) :
    Nat → List Frame → List Token → Except Err (Node × List Token)
  | 0, _, _ => .error .fuel
  | fuelb + 1, stack, ts => do
      let p ← parsePrimary env opts pe ts
      match p.2 with
      | [] => .ok (assemble stack p.1, [])
      | tok :: r =>
          if tok.type == .punct then
            match env.get tok.data with
            | some info => binIter env opts pe fuelb (binStep stack p.1 tok.data info) r
            | none => .ok (assemble stack p.1, tok :: r)
          else .ok (assemble stack p.1, tok :: r)

/-- `Parser.parseExpression` minus the recursive tie: nested sub-expressions
(parenthesized groups, call arguments) are parsed by `pe`. -/
def parseCore (env : Environment) (opts : Options) (pe : ParseFn)
    (ts : List Token) : Except Err (Node × List Token) :=
  binIter env opts pe (ts.length + 1) [] ts

/-- `Parser.parseExpression`, tied to itself for nested sub-expressions.
The fuel bounds the nesting depth; every nested call is behind at least one
consumed token, so `length + 1` always suffices. -/
def parseExpr (env : Environment) (opts : Options) : Nat → ParseFn
  | 0 => fun _ => .error .fuel
  | fuele + 1 => fun ts => parseCore env opts (parseExpr env opts fuele) ts

/-- `Parser.parse`: the root expression must be nonempty and must consume
every token. -/
def parseTokens (env : Environment) (opts : Options) (ts : List Token) :
    Except Err Node := do
  match ts with
  | [] => .error (.unexpectedToken "<end>" (-1))
  | _ => do
      let p ← parseExpr env opts (ts.length + 1) ts
      match p.2 with
      | [] => pure p.1
      | tok :: _ => .error (.unexpectedToken tok.data tok.position)

mutual

/-- Denotation of the compiled map-keyed evaluator: the closure emitted by
`$onFuncCompile(root, "v", null)` computes, for every default emit template,
exactly the definition's native callback on the evaluated operands, with
variables read from the binding (an absent property is `undefined`, which the
numeric operations treat as NaN — callers of this model encode absence as
`JSNum.nan`). -/
def evalMap (v : String → JSNum) : Node → JSNum
  | .val x => x
  | .var n => v n
  | .unary _ info c => info.eval [evalMap v c]
  | .binary _ info l r => info.eval [evalMap v l, evalMap v r]
  | .call _ info args => info.eval (evalMapList v args)
  | .cond c t e => if (evalMap v c).truthy then evalMap v t else evalMap v e

/-- Evaluate a `Call` node's arguments in order. -/
def evalMapList (v : String → JSNum) : List Node → List JSNum
  | [] => []
  | n :: rest => evalMap v n :: evalMapList v rest

end

mutual

/-- `Expression.$onNodeInfo`: the variable names occurring in a tree (the
source stores `name → node`; the key set is what the claims use). -/
def varNames : Node → List String
  | .val _ => []
  | .var n => [n]
  | .unary _ _ c => varNames c
  | .binary _ _ l r => varNames l ++ varNames r
  | .call _ _ args => varNamesList args
  | .cond c t e => varNames c ++ varNames t ++ varNames e

/-- Variable names of a `Call` node's arguments. -/
def varNamesList : List Node → List String
  | [] => []
  | n :: rest => varNames n ++ varNamesList rest

end

/-- The type of a compiled default (map-keyed) evaluator. -/
abbrev EvalFn := (String → JSNum) → JSNum

/-- Build the default evaluator from a root node (the body of the source's
`this.$onFuncCompile(this.root, "v", null)`). -/
def buildEval (root : Node) : EvalFn := fun v => evalMap v root

/-- `xex.Expression`: environment reference, root node, dirty flag, and the
two lazy caches `$eval` and `$vars`. -/
structure Expression where
  env : Environment
  root : Node
  dirty : Bool
  cachedEval : Option EvalFn
  cachedVars : Option (List String)

/-- `Expression._checkDirty`: when dirty, reset the flag and drop both
caches. -/
def Expression.checkDirty (e : Expression) : Expression :=
  if e.dirty then { e with dirty := false, cachedEval := none, cachedVars := none }
  else e

/-- `Expression.fold`: fold the root in place, then `_checkDirty`. -/
def Expression.fold (e : Expression) (cmap : Option Cmap) : Expression :=
  let r := foldNode cmap e.root
  Expression.checkDirty { e with root := r.1, dirty := e.dirty || r.2 }

/-- `Expression.clone` (pure-tree view; sharing of `Var` nodes is modelled
separately in the heap development below). -/
def Expression.clone (e : Expression) : Expression :=
  ⟨e.env, e.root, false, none, none⟩

/-- The `get eval` accessor: build the default evaluator on first access and
cache it; return the cached closure afterwards.  Returns the evaluator and
the (possibly updated) expression state. -/
def Expression.getEval (e : Expression) : EvalFn × Expression :=
  match e.cachedEval with
  | some f => (f, e)
  | none =>
      let f := buildEval e.root
      (f, { e with cachedEval := some f })

/-- The `get vars` accessor (same lazy-cache mechanics as `get eval`). -/
def Expression.getVars (e : Expression) : List String × Expression :=
  match e.cachedVars with
  | some vs => (vs, e)
  | none =>
      let vs := varNames e.root
      (vs, { e with cachedVars := some vs })

/-- `Environment.exp`: tokenize, parse, wrap in an `Expression`, and fold
unless `noFolding` is set. -/
def Environment.exp (env : Environment) (input : String) (opts : Options) :
    Except Err Expression := do
  let ts ← tokenize env input
  let root ← parseTokens env opts ts
  let e : Expression := ⟨env, root, false, none, none⟩
  pure (if opts.noFolding then e else e.fold none)

/-- A JS value passed to `Expression.compile` (`args`), as far as the
`Array.isArray` / `typeof` dispatch can distinguish it. -/
inductive JsArg where
  | arr : List String → JsArg
  | obj : JsArg
  | nullV : JsArg
  | undef : JsArg
  | boolV : Bool → JsArg
  | str : String → JsArg
  | num : JSNum → JsArg
deriving DecidableEq, Repr

/-- `Array.isArray`. -/
def JsArg.isArr : JsArg → Bool
  | .arr _ => true
  | _ => false

/-- JS `typeof` (note `typeof null === "object"` and
`typeof [] === "object"`). -/
def jsTypeof : JsArg → String
  | .arr _ => "object"
  | .obj => "object"
  | .nullV => "object"
  | .undef => "undefined"
  | .boolV _ => "boolean"
  | .str _ => "string"
  | .num _ => "number"

/-- The `vmap` building loop of `Expression.compile`: each name maps to its
position; a repeated name fails with the duplicate-variable error. -/
def buildVmap : List String → List (String × Nat) → Nat →
    Except Err (List (String × Nat))
  | [], acc, _ => .ok acc
  | n :: rest, acc, i =>
      if (acc.lookup n).isSome then .error (.dupCompileVar n)
      else buildVmap rest (acc ++ [(n, i)]) (i + 1)

mutual

/-- The variable-mapping check of `$onNodeCompile` with an object `vmap`:
a `Var` whose name is not a key of `vmap` fails.  The recursion is
structural, which coincides with the emit-template–driven recursion for every
default template (each operand placeholder occurs exactly once). -/
def compileCheck (vmap : List (String × Nat)) : Node → Except Err Unit
  | .val _ => .ok ()
  | .var n =>
      if (vmap.lookup n).isSome then .ok ()
      else .error (.varNoMapping n)
  | .unary _ _ c => compileCheck vmap c
  | .binary _ _ l r => do
      let _ ← compileCheck vmap l
      compileCheck vmap r
  | .call _ _ args => compileCheckList vmap args
  | .cond c t e => do
      let _ ← compileCheck vmap c
      let _ ← compileCheck vmap t
      compileCheck vmap e

/-- Check every argument of a `Call` node. -/
def compileCheckList (vmap : List (String × Nat)) : List Node → Except Err Unit
  | [] => .ok ()
  | n :: rest => do
      let _ ← compileCheck vmap n
      compileCheckList vmap rest

end

/-- `Expression.compile(args)`: reject a non-array argument up front (with
`typeof args` in the error), build the name→position map rejecting
duplicates, check that every variable of the tree is mapped, and return the
positional evaluator (denotationally: the map-keyed evaluation with each name
bound to its positional argument; a position beyond the supplied argument
list is `undefined`, i.e. NaN). -/
def Expression.compile (e : Expression) (args : JsArg) :
    Except Err (List JSNum → JSNum) :=
  match args with
  | .arr names => do
      let vmap ← buildVmap names [] 0
      let _ ← compileCheck vmap e.root
      pure (fun inputs =>
        evalMap (fun n =>
          match vmap.lookup n with
          | some i => inputs.getD i .nan
          | none => .nan) e.root)
  | a => .error (.notArray (jsTypeof a))

/-- Apply a JS callback of three declared parameters to an argument list. -/
def fn3 (f : JSNum → JSNum → JSNum → JSNum) : List JSNum → JSNum
  | x :: y :: z :: _ => f x y z
  | [x, y] => f x y .nan
  | [x] => f x .nan .nan
  | [] => f .nan .nan .nan

/-- Modelled from the spec: `isbetween(x, min, max)` of the spec'd default
registry (absent from src/xex.js v0.0.2; README: "returns 0 or 1", "returns 0
if x is NaN"). -/
def isbetweenFn (x mi ma : JSNum) : JSNum :=
  JSNum.ofBool (JSNum.jleB mi x && JSNum.jleB x ma)

/-- Modelled from the spec: `clamp(x, min, max)` of the spec'd default
registry (absent from src/xex.js v0.0.2; README: "returns NaN if x is
NaN"). -/
def clampFn (x mi ma : JSNum) : JSNum :=
  if x.isNaNB then .nan
  else if JSNum.jltB x mi then mi
  else if JSNum.jltB ma x then ma
  else x

/-- Modelled from the spec: variadic `isequal(x, y, …)` of the spec'd default
registry, with the bitwise-equal semantics of `~=` (NaN equals NaN; absent
from src/xex.js v0.0.2). -/
def isequalFn : List JSNum → JSNum
  | [] => .nan
  | x :: rest => JSNum.ofBool (rest.all (bineqB x))

/-- Modelled from the spec: the default registry described by the spec also
contains `isbetween` (3-ary), `clamp` (3-ary) and `isequal` (variadic ≥ 2);
these three registrations are missing from src/xex.js v0.0.2 (the
repository's README documents them). -/
def baseEnvSpecE : Except Err Environment := do
  let e ← baseEnvE
  let e ← e.addFunction "isbetween" 3 none true (fn3 isbetweenFn) none
  let e ← e.addFunction "clamp" 3 none true (fn3 clampFn) none
  let e ← e.addFunction "isequal" 2 (some .inf) true isequalFn none
  pure e

/-- The spec'd default environment (extracted from `baseEnvSpecE`). -/
def xexDefault : Environment :=
  match baseEnvSpecE with
  | .ok e => e
  | .error _ => Environment.new

/-- Modelled from the spec: exponentiation, as the registrant-supplied native
callback of the `**` operator in the extension test (spec §8); exact for a
finite base and natural exponent, which covers its uses. -/
def jpow : JSNum → JSNum → JSNum
  | .fin a, .fin b =>
      if b.den = 1 ∧ 0 ≤ b.num then .fin (Q.powN a b.num.toNat) else .nan
  | _, _ => .nan

/-- Modelled from the spec (§4.4, "Ternary conditional"): parse a conditional
`cond ? ifTrue : ifFalse` at its own precedence band, looser than every
binary operator: first parse a full binary expression (which stops at `?` and
`:` since neither names a registry entry), then, on a `?`, the two branches,
producing the dedicated 3-ary `cond` node.  Absent from src/xex.js v0.0.2. -/
def parseCond (env : Environment) (opts : Options) : Nat → ParseFn
  | 0 => fun _ => .error .fuel
  | fuelc + 1 => fun ts => do
      let p ← parseCore env opts (parseCond env opts fuelc) ts
      match p.2 with
      | [] => pure p
      | tok :: r =>
          if tok.type == .punct && tok.data == "?" then do
            let t ← parseCond env opts fuelc r
            match t.2 with
            | [] => .error (.unexpectedToken "<end>" (-1))
            | t2 :: r₂ =>
                if t2.data == ":" then do
                  let f ← parseCond env opts fuelc r₂
                  pure (.cond p.1 t.1 f.1, f.2)
                else .error (.unexpectedToken t2.data t2.position)
          else pure p

/-- Modelled from the spec: top-level parse with the ternary construct. -/
def parseCondTokens (env : Environment) (opts : Options) (ts : List Token) :
    Except Err Node := do
  match ts with
  | [] => .error (.unexpectedToken "<end>" (-1))
  | _ => do
      let p ← parseCond env opts (ts.length + 1) ts
      match p.2 with
      | [] => pure p.1
      | tok :: _ => .error (.unexpectedToken tok.data tok.position)

/-- Modelled from the spec: `Environment.exp` of the spec'd version, whose
parser includes the ternary construct. -/
def Environment.expSpec (env : Environment) (input : String) (opts : Options) :
    Except Err Expression := do
  let ts ← tokenize env input
  let root ← parseCondTokens env opts ts
  let e : Expression := ⟨env, root, false, none, none⟩
  pure (if opts.noFolding then e else e.fold none)

mutual

/-- Modelled from the spec: the tree-walking evaluation of an expression
(spec §4.6 strategy (a)), instrumented with the ordered list of definition
names whose native `evaluate` callback is invoked.  A conditional first
evaluates its condition, then evaluates *only* the selected branch. -/
def evalT (v : String → JSNum) : Node → JSNum × List String
  | .val x => (x, [])
  | .var n => (v n, [])
  | .unary name info c =>
      let r := evalT v c
      (info.eval [r.1], r.2 ++ [name])
  | .binary name info l r =>
      let a := evalT v l
      let b := evalT v r
      (info.eval [a.1, b.1], a.2 ++ b.2 ++ [name])
  | .call name info args =>
      let rs := evalTList v args
      (info.eval rs.1, rs.2 ++ [name])
  | .cond c t e =>
      let rc := evalT v c
      if rc.1.truthy then
        let rt := evalT v t
        (rt.1, rc.2 ++ rt.2)
      else
        let re := evalT v e
        (re.1, rc.2 ++ re.2)

/-- Evaluate a `Call` node's arguments in order, accumulating the traces. -/
def evalTList (v : String → JSNum) : List Node → List JSNum × List String
  | [] => ([], [])
  | n :: rest =>
      let r := evalT v n
      let rs := evalTList v rest
      (r.1 :: rs.1, r.2 ++ rs.2)

end

/-- A heap reference: either a plain JS number in a node position, or a
pointer to a heap cell.  This heap development models the *mutation* performed
by `cloneNode` / `$onNodeFold` (which assign `node.value`, `node.left`,
`node.right`, `args[i]` in place), which the pure tree view above cannot
express. -/
inductive Ref where
  | val : JSNum → Ref
  | ptr : Nat → Ref
deriving DecidableEq, Repr

/-- A heap cell: one mutable AST node object of the source (the node kinds of
src/xex.js; `Var` cells are never mutated). -/
inductive Cell where
  | varC : String → Cell
  | unaryC : String → Def → Ref → Cell
  | binC : String → Def → Ref → Ref → Cell
  | callC : String → Def → List Ref → Cell

/-- The heap: cells addressed by position; allocation appends. -/
abbrev Heap := List Cell

/-- The pointer content of a reference. -/
def refPtrs : Ref → List Nat
  | .ptr a => [a]
  | .val _ => []

/-- The pointer children of a cell. -/
def cellPtrs : Cell → List Nat
  | .varC _ => []
  | .unaryC _ _ v => refPtrs v
  | .binC _ _ l r => refPtrs l ++ refPtrs r
  | .callC _ _ args => args.bind refPtrs

/-- Is the cell a `Var` node? -/
def isVarC : Cell → Bool
  | .varC _ => true
  | _ => false

/-- Every pointer stored in the heap is a valid address (true of all heaps
built by the parser; preserved by clone and fold). -/
def closedB (h : Heap) : Bool :=
  h.all (fun c => (cellPtrs c).all (fun a => a < h.length))

mutual

/-- `cloneNode` over the heap: numbers are returned as is, `Var` cells are
shared (the source comment: "Variable nodes are immutable"), and every other
node is deep-copied into freshly allocated cells (children first). -/
def cloneRef : Nat → Heap → Ref → Except Err (Heap × Ref)
  | 0, _, _ => .error .fuel
  | _ + 1, h, .val v => .ok (h, .val v)
  | fuelc + 1, h, .ptr a =>
      match h.get? a with
      | none => .error (.nodeNotRecognized "dangling")
      | some (.varC _) => .ok (h, .ptr a)
      | some (.unaryC n i v) => do
          let r ← cloneRef fuelc h v
          .ok (r.1 ++ [.unaryC n i r.2], .ptr r.1.length)
      | some (.binC n i l r) => do
          let rl ← cloneRef fuelc h l
          let rr ← cloneRef fuelc rl.1 r
          .ok (rr.1 ++ [.binC n i rl.2 rr.2], .ptr rr.1.length)
      | some (.callC n i args) => do
          let rs ← cloneList fuelc h args
          .ok (rs.1 ++ [.callC n i rs.2], .ptr rs.1.length)

/-- Clone the arguments of a `Call` node left to right. -/
def cloneList : Nat → Heap → List Ref → Except Err (Heap × List Ref)
  | 0, _, _ => .error .fuel
  | _ + 1, h, [] => .ok (h, [])
  | fuelc + 1, h, x :: xs => do
      let r ← cloneRef fuelc h x
      let rs ← cloneList fuelc r.1 xs
      .ok (rs.1, r.2 :: rs.2)

end

/-- Write the `value` field of the `Unary` cell at `a` (a no-op on any other
cell shape, which the fold never reaches). -/
def setUnaryValue (h : Heap) (a : Nat) (v : Ref) : Heap :=
  match h.get? a with
  | some (.unaryC n i _) => h.set a (.unaryC n i v)
  | _ => h

/-- Write the `left` field of the `Binary` cell at `a`. -/
def setBinLeft (h : Heap) (a : Nat) (v : Ref) : Heap :=
  match h.get? a with
  | some (.binC n i _ r) => h.set a (.binC n i v r)
  | _ => h

/-- Write the `right` field of the `Binary` cell at `a`. -/
def setBinRight (h : Heap) (a : Nat) (v : Ref) : Heap :=
  match h.get? a with
  | some (.binC n i l _) => h.set a (.binC n i l v)
  | _ => h

/-- Read the `right` field of the `Binary` cell at `a` (the source re-reads
`node.right` after the left child's fold has run). -/
def getBinRight (h : Heap) (a : Nat) : Ref :=
  match h.get? a with
  | some (.binC _ _ _ r) => r
  | _ => .val .nan

/-- Write `args[k]` of the `Call` cell at `a`. -/
def setCallArg (h : Heap) (a : Nat) (k : Nat) (v : Ref) : Heap :=
  match h.get? a with
  | some (.callC n i args) => h.set a (.callC n i (args.set k v))
  | _ => h

/-- The source's `isValue` test on a heap reference. -/
def isValRef : Ref → Bool
  | .val _ => true
  | .ptr _ => false

/-- Numeric content of a `val` reference (only read under `isValRef`). -/
def refVal : Ref → JSNum
  | .val v => v
  | .ptr _ => .nan

mutual

/-- `$onNodeFold` over the heap, with in-place child-field writes:
numbers fold to themselves; a `Var` with a substitution folds to the value
(no write); `Unary`/`Binary`/`Call` fold their children first, writing each
folded child back into the cell, then collapse to a number when the
definition is safe and all children are numbers.  Returns the final heap, the
resulting reference (always the original reference or a number) and the
dirty flag. -/
def foldRefH : Nat → Option Cmap → Heap → Ref → Except Err (Heap × Ref × Bool)
  | 0, _, _, _ => .error .fuel
  | _ + 1, _, h, .val v => .ok (h, .val v, false)
  | fuelf + 1, cm, h, .ptr a =>
      match h.get? a with
      | none => .error (.nodeNotRecognized "dangling")
      | some (.varC name) =>
          (match cm with
           | some m =>
               match m.lookup name with
               | some v => .ok (h, .val v, true)
               | none => .ok (h, .ptr a, false)
           | none => .ok (h, .ptr a, false))
      | some (.unaryC _ i v) => do
          let r ← foldRefH fuelf cm h v
          let h₁ := setUnaryValue r.1 a r.2.1
          if i.safe && isValRef r.2.1 then
            .ok (h₁, .val (i.eval [refVal r.2.1]), true)
          else .ok (h₁, .ptr a, r.2.2)
      | some (.binC _ i l _) => do
          let rl ← foldRefH fuelf cm h l
          let h₁ := setBinLeft rl.1 a rl.2.1
          let rr ← foldRefH fuelf cm h₁ (getBinRight h₁ a)
          let h₂ := setBinRight rr.1 a rr.2.1
          if i.safe && isValRef rl.2.1 && isValRef rr.2.1 then
            .ok (h₂, .val (i.eval [refVal rl.2.1, refVal rr.2.1]), true)
          else .ok (h₂, .ptr a, rl.2.2 || rr.2.2)
      | some (.callC _ i _) => do
          let r ← foldArgsH fuelf cm h a 0
          match r.1.get? a with
          | some (.callC _ _ args₂) =>
              if i.safe && args₂.all isValRef then
                .ok (r.1, .val (i.eval (args₂.map refVal)), true)
              else .ok (r.1, .ptr a, r.2)
          | _ => .ok (r.1, .ptr a, r.2)

/-- The `for (i … args.length)` loop folding the arguments of the `Call` cell
at `a`, writing each folded argument back into the array. -/
def foldArgsH : Nat → Option Cmap → Heap → Nat → Nat → Except Err (Heap × Bool)
  | 0, _, _, _, _ => .error .fuel
  | fuelf + 1, cm, h, a, k =>
      match h.get? a with
      | some (.callC _ _ args) =>
          (match args.get? k with
           | none => .ok (h, false)
           | some x => do
               let r ← foldRefH fuelf cm h x
               let h₁ := setCallArg r.1 a k r.2.1
               let rest ← foldArgsH fuelf cm h₁ a (k + 1)
               .ok (rest.1, r.2.2 || rest.2))
      | _ => .ok (h, false)

end

/-- Reachability between heap addresses along pointer children. -/
inductive Reach (h : Heap) : Nat → Nat → Prop
  | refl (a : Nat) : Reach h a a
  | step (a b c : Nat) (cell : Cell) :
      h.get? a = some cell → b ∈ cellPtrs cell → Reach h b c → Reach h a c

/-- Reachability from a reference. -/
def RefReach (h : Heap) (r : Ref) (x : Nat) : Prop :=
  ∃ b, r = .ptr b ∧ Reach h b x

/-- Same node object skeleton: the fold's in-place writes never change a
cell's constructor, name, definition reference, or argument count — only the
child references. -/
def sameSkel : Cell → Cell → Prop
  | .varC n, .varC n' => n = n'
  | .unaryC n i _, .unaryC n' i' _ => n = n' ∧ i = i'
  | .binC n i _ _, .binC n' i' _ _ => n = n' ∧ i = i'
  | .callC n i args, .callC n' i' args' => n = n' ∧ i = i' ∧ args.length = args'.length
  | _, _ => False

/-- Proposition form of heap closedness. -/
def Closed (h : Heap) : Prop :=
  ∀ x c, h.get? x = some c → ∀ p ∈ cellPtrs c, p < h.length

/-- `h'` extends `h` without touching its cells. -/
def PrefixExt (h h' : Heap) : Prop :=
  h.length ≤ h'.length ∧ ∀ x, x < h.length → h'.get? x = h.get? x

/-- The frame of one fold step over the original heap `h`: same length;
every changed address satisfies `R` and held a non-`Var` cell; every cell
keeps its skeleton and can only lose pointer children. -/
def FoldFrame (h h' : Heap) (R : Nat → Prop) : Prop :=
  h'.length = h.length ∧
  (∀ x, h'.get? x ≠ h.get? x →
    R x ∧ ∃ c, h.get? x = some c ∧ isVarC c = false) ∧
  (∀ x c', h'.get? x = some c' → ∃ c, h.get? x = some c ∧
    sameSkel c c' ∧ ∀ p ∈ cellPtrs c', p ∈ cellPtrs c)

/-- The root of a successfully built expression when it is a plain number
(an expression that "folds to the literal v" has `rootVal … = some v`). -/
def rootVal (r : Except Err Expression) : Option JSNum :=
  match r with
  | .ok e =>
      match e.root with
      | .val v => some v
      | _ => none
  | .error _ => none

/-- The registry of the spec's extension test (§8): the default environment,
cloned, extended with a binary `**` of precedence 2, right-associative, safe,
bound to exponentiation (extracted from the `Except`; the registration
succeeds, see `envPow_ok`). -/
def envPow : Environment :=
  match xexEnv.clone.addBinary "**" 2 true true (fn2 jpow) none with
  | .ok e => e
  | .error _ => Environment.new

/-- Kind, minimum argument count and maximum argument count of a registry
entry (a decidable projection of `Environment.get`). -/
def defMeta (d : Option Def) : Option (DefType × Nat × Arity) :=
  d.map (fun d => (d.type, d.args, d.amax))

/-- `xexEnv` extended (on a clone) with two 0-ary *unsafe* functions `a` and
`b`, mirroring the repository's ternary-laziness test (`taken`/`notTaken`);
`a` returns 1 and `b` returns 0. -/
def envAB : Environment :=
  match (do
      let e ← (Environment.clone xexDefault).addFunction "a" 0 none false
        (fun _ => (1 : JSNum)) none
      e.addFunction "b" 0 none false (fun _ => (0 : JSNum)) none :
      Except Err Environment) with
  | .ok e => e
  | .error _ => Environment.new

instance {ε α : Type} [DecidableEq ε] [DecidableEq α] :
    DecidableEq (Except ε α) := fun a b =>
  match a, b with
  | .ok x, .ok y =>
      if h : x = y then isTrue (by rw [h]) else isFalse (by intro e; cases e; exact h rfl)
  | .error x, .error y =>
      if h : x = y then isTrue (by rw [h]) else isFalse (by intro e; cases e; exact h rfl)
  | .ok _, .error _ => isFalse (by intro e; cases e)
  | .error _, .ok _ => isFalse (by intro e; cases e)

/-- The root node of a successfully built expression. -/
def rootOf (r : Except Err Expression) : Option Node :=
  match r with
  | .ok e => some e.root
  | .error _ => none

/-- The empty environment after one `freeze()` call. -/
def frozenEmptyEnv : Environment := ⟨[], [], true⟩

/-- A concrete expression (`root = x`) with empty caches, for the eval-cache
counterexample: folding it rewrites nothing. -/
def c4Expr : Expression := ⟨xexEnv, .var "x", false, none, none⟩

/-- A placeholder definition object (only used where a lookup cannot fail). -/
def dummyDef : Def :=
  ⟨.constant, "", .nan, 0, .fin 0, 0, false, true, fun _ => .nan, ""⟩

/-- The `+` definition of the default registry. -/
def defAddW : Def :=
  match xexEnv.get "+" with
  | some d => d
  | none => dummyDef

/-- Witness heap for the clone/fold frame claim: the partially folded tree
`x + 1` — a `Var` cell at address 0 and a `Binary` cell at address 1 whose
left child points at it. -/
def heapW : Heap := [.varC "x", .binC "+" defAddW (.ptr 0) (.val 1)]

/-- `heapW` after cloning its root: the binary node is copied to a fresh cell
(address 2) sharing the `Var` cell. -/
def heapWClone : Heap := heapW ++ [.binC "+" defAddW (.ptr 0) (.val 1)]

-- ---------------------------------------------------------------------------
-- Theorems
-- ---------------------------------------------------------------------------

/-- The base registry chain succeeds and produces `xexEnv`. -/
theorem baseEnvE_ok : baseEnvE = .ok xexEnv := rfl

/-- The spec'd default registry chain succeeds and produces `xexDefault`. -/
theorem baseEnvSpecE_ok : baseEnvSpecE = .ok xexDefault := rfl

/-- Registering `**` on a clone of the default environment succeeds. -/
theorem envPow_ok :
    xexEnv.clone.addBinary "**" 2 true true (fn2 jpow) none = .ok envPow := rfl

/-- C2: the default (base) registry contains `isbetween` as a 3-argument
Function, `clamp` as a 3-argument Function, and `isequal` as a variadic
(≥ 2 arguments) Function with the bitwise-equal semantics of `~=`:
`get` returns a Function definition of the stated arity for each, and the
registered `isequal` callback agrees with the `~=` callback (`bineq`) on
every pair of numbers. -/
theorem C2_default_registry_isbetween_clamp_isequal :
    defMeta (xexDefault.get "isbetween") = some (.function, 3, .fin 3) ∧
    defMeta (xexDefault.get "clamp") = some (.function, 3, .fin 3) ∧
    defMeta (xexDefault.get "isequal") = some (.function, 2, .inf) ∧
    (∀ x y : JSNum, isequalFn [x, y] = bineq x y) ∧
    (xexDefault.get "isequal").map (fun d => d.eval) = some isequalFn := by
  refine ⟨by decide, by decide, by decide, ?_, rfl⟩
  intro x y
  simp [isequalFn, bineq, bineqB, List.all]

/-- C5: parsing and folding respect registry precedence (lower binds
tighter) and associativity: `2 + 3 * 4` folds to the literal 14 and
`(2 + 3) * 4` to 20 in the default registry; in a clone of the default
registry extended with a binary `**` of precedence 2 marked
right-associative (bound to exponentiation), `2 ** 3 ** 2` folds to 512 and
`(2 ** 3) ** 2` to 64. -/
theorem C5_precedence_associativity :
    rootVal (xexEnv.exp "2 + 3 * 4" Options.default) = some (.fin 14) ∧
    rootVal (xexEnv.exp "(2 + 3) * 4" Options.default) = some (.fin 20) ∧
    (envPow.get "**").map (fun d => (d.type, d.prec, d.rtl)) =
      some (.operator, 2, true) ∧
    rootVal (envPow.exp "2 ** 3 ** 2" Options.default) = some (.fin 512) ∧
    rootVal (envPow.exp "(2 ** 3) ** 2" Options.default) = some (.fin 64) := by
  refine ⟨by decide, by decide, rfl, by decide, by decide⟩

/-- C10: for every expression and every non-array argument (an object, a
string, null, undefined, a boolean, a number), `compile` throws the
`ExpressionError` "Argument 'args' must be an array, not 'typeof'" before
constructing any evaluator; a successful compilation only ever happens for
an array argument. -/
theorem C10_compile_requires_array :
    (∀ (e : Expression) (a : JsArg), a.isArr = false →
      e.compile a = .error (.notArray (jsTypeof a))) ∧
    (∀ (e : Expression) (a : JsArg) (f : List JSNum → JSNum),
      e.compile a = .ok f → ∃ l, a = .arr l) := by
  constructor
  · intro e a h
    cases a <;> simp_all [Expression.compile, JsArg.isArr]
  · intro e a f h
    cases a <;> simp_all [Expression.compile, JsArg.isArr]

/-- C10 witness: compiling a concrete expression with a string argument
fails with the non-array error; the same expression compiles with `["x"]`. -/
theorem C10_compile_requires_array_witness :
    (Expression.mk xexEnv (.var "x") false none none).compile (.str "x") =
      .error (.notArray "string") ∧
    ((Expression.mk xexEnv (.var "x") false none none).compile
      (.arr ["x"])).isOk = true := by
  refine ⟨C10_compile_requires_array.1 _ _ rfl, by decide⟩

/-- C3 counterexample: freezing is *not* idempotent.  Freezing a fresh
environment succeeds, but calling `freeze()` a second time on the
already-frozen registry throws (the strict-mode `TypeError` raised by
`this.frozen = true` on the `Object.freeze`-d instance) instead of
succeeding as the claim states. -/
theorem C3_freeze_counterexample :
    Environment.new.freeze = .ok frozenEmptyEnv ∧
    frozenEmptyEnv.freeze = .error .frozenWrite := ⟨rfl, rfl⟩

/-- C3 (amended): a first `freeze()` marks the registry frozen; a second
`freeze()` on the already-frozen registry throws a strict-mode `TypeError`
(the write to the now read-only `frozen` property), leaving the registry's
tables and frozen state unchanged (the two `Object.freeze` calls before the
throwing write succeed silently and change nothing). -/
theorem C3_freeze_second_throws (e e' : Environment)
    (h : e.freeze = .ok e') :
    e'.frozen = true ∧
    e'.lang = e.lang ∧ e'.func = e.func ∧
    e'.freeze = .error .frozenWrite := by
  unfold Environment.freeze at h ⊢
  by_cases hf : e.frozen = true
  · simp [hf] at h
  · simp [hf] at h
    subst h
    simp

/-- C3 witness: instantiating the amended statement at the fresh
environment. -/
theorem C3_freeze_second_throws_witness :
    frozenEmptyEnv.frozen = true ∧
    frozenEmptyEnv.lang = Environment.new.lang ∧
    frozenEmptyEnv.func = Environment.new.func ∧
    frozenEmptyEnv.freeze = .error .frozenWrite :=
  C3_freeze_second_throws Environment.new frozenEmptyEnv rfl

/-- C4 counterexample: the cached default evaluator is *not* discarded by
every `fold()` call.  For the expression `x` (no foldable constants), first
accessing `eval` builds and caches the evaluator, and a subsequent `fold()`
— which rewrites nothing and therefore never marks the expression dirty —
leaves the cache in place (`some …`, not the empty cache the claim
requires). -/
theorem C4_eval_cache_counterexample :
    c4Expr.cachedEval = none ∧
    (c4Expr.getEval).2.cachedEval = some (buildEval (.var "x")) ∧
    ((c4Expr.getEval).2.fold none).cachedEval = some (buildEval (.var "x")) ∧
    (((c4Expr.getEval).2.fold none).cachedEval = none → False) := by
  refine ⟨rfl, rfl, rfl, ?_⟩
  intro h
  simp [c4Expr, Expression.getEval, Expression.fold, Expression.checkDirty,
    foldNode, buildEval] at h

/-- C4 (amended): the cached default map-keyed evaluator is built lazily on
the first access of `eval` (and returned as-is afterwards), and it is
discarded exactly by the `fold()` calls that perform a rewrite (mark the
expression dirty): after such a fold both caches are empty and the next
`eval` access rebuilds the evaluator from the new root; a `fold()` that
rewrites nothing leaves the cache untouched. -/
theorem C4_eval_cache_lifecycle :
    (∀ e : Expression, e.cachedEval = none →
      e.getEval = (buildEval e.root,
        { e with cachedEval := some (buildEval e.root) })) ∧
    (∀ (e : Expression) (f : EvalFn), e.cachedEval = some f →
      e.getEval = (f, e)) ∧
    (∀ (e : Expression) (cm : Option Cmap), (foldNode cm e.root).2 = true →
      (e.fold cm).cachedEval = none ∧ (e.fold cm).cachedVars = none) ∧
    (∀ (e : Expression) (cm : Option Cmap), e.dirty = false →
      (foldNode cm e.root).2 = false →
      (e.fold cm).cachedEval = e.cachedEval) ∧
    (∀ (e : Expression) (cm : Option Cmap), (foldNode cm e.root).2 = true →
      ((e.fold cm).getEval).1 = buildEval (foldNode cm e.root).1) := by
  refine ⟨?_, ?_, ?_, ?_, ?_⟩
  · intro e h
    simp [Expression.getEval, h]
  · intro e f h
    simp [Expression.getEval, h]
  · intro e cm h
    simp [Expression.fold, Expression.checkDirty, h]
  · intro e cm hd h
    simp [Expression.fold, Expression.checkDirty, h, hd]
  · intro e cm h
    simp [Expression.fold, Expression.checkDirty, Expression.getEval, h]

/-- C4 witness: the lifecycle applied at concrete inputs — lazy build on
`x`, and cache discarding after the rewriting fold of `x` with `x ↦ 1`. -/
theorem C4_eval_cache_lifecycle_witness :
    (c4Expr.getEval = (buildEval c4Expr.root,
      { c4Expr with cachedEval := some (buildEval c4Expr.root) })) ∧
    ((c4Expr.fold (some [("x", (1 : JSNum))])).cachedEval = none ∧
     (c4Expr.fold (some [("x", (1 : JSNum))])).cachedVars = none) ∧
    ((c4Expr.fold (some [("x", (1 : JSNum))])).getEval).1 =
      buildEval (foldNode (some [("x", (1 : JSNum))]) c4Expr.root).1 :=
  ⟨C4_eval_cache_lifecycle.1 c4Expr rfl,
   C4_eval_cache_lifecycle.2.2.1 c4Expr _ rfl,
   C4_eval_cache_lifecycle.2.2.2.2 c4Expr _ rfl⟩

mutual

/-- Refolding an already-folded node (with no substitutions) changes nothing
and marks no rewrite. -/
theorem foldNode_refold (cm : Option Cmap) (n : Node) :
    foldNode none (foldNode cm n).1 = ((foldNode cm n).1, false) := by
  cases n with
  | val v => simp [foldNode]
  | var name =>
      cases cm with
      | none => simp [foldNode]
      | some m =>
          simp only [foldNode]
          cases m.lookup name with
          | none => simp [foldNode]
          | some v => simp [foldNode]
  | unary name info v =>
      have ih := foldNode_refold cm v
      simp only [foldNode]
      by_cases h : (info.safe && isVal (foldNode cm v).1) = true
      · simp [h, foldNode]
      · simp [h, foldNode, ih]
  | binary name info l r =>
      have ihl := foldNode_refold cm l
      have ihr := foldNode_refold cm r
      simp only [foldNode]
      by_cases h : (info.safe && isVal (foldNode cm l).1 &&
          isVal (foldNode cm r).1) = true
      · simp [h, foldNode]
      · simp [h, foldNode, ihl, ihr]
  | call name info args =>
      have ih := foldArgs_refold cm args
      simp only [foldNode]
      by_cases h : (info.safe && ((foldArgs cm args).map Prod.fst).all isVal) = true
      · simp [h, foldNode]
      · rw [if_neg h]
        simp only [foldNode, ih]
        have hmap : List.map Prod.fst (List.map (fun n => (n, false))
            (List.map Prod.fst (foldArgs cm args))) =
            List.map Prod.fst (foldArgs cm args) := by
          simp [List.map_map, Function.comp_def]
        rw [hmap, if_neg h]
        simp [List.map_map, Function.comp_def]
  | cond c t e =>
      have ihc := foldNode_refold cm c
      have iht := foldNode_refold cm t
      have ihe := foldNode_refold cm e
      simp only [foldNode]
      by_cases h : isVal (foldNode cm c).1 = true
      · by_cases ht : (getVal (foldNode cm c).1).truthy = true
        · simp [h, ht, foldNode_refold cm t]
        · simp [h, ht, foldNode_refold cm e]
      · simp only [h, Bool.false_eq_true, if_false, foldNode]
        have hc' : isVal (foldNode none (foldNode cm c).1).1 = false := by
          rw [ihc]; simpa using h
        simp [ihc, iht, ihe, h]

/-- Refolding already-folded call arguments changes nothing. -/
theorem foldArgs_refold (cm : Option Cmap) (l : List Node) :
    foldArgs none ((foldArgs cm l).map Prod.fst) =
      ((foldArgs cm l).map Prod.fst).map (fun n => (n, false)) := by
  cases l with
  | nil => simp [foldArgs]
  | cons a rest =>
      have iha := foldNode_refold cm a
      have ihr := foldArgs_refold cm rest
      simp [foldArgs, iha, ihr]

end

/-- C7: folding is idempotent — for every `Expression` (in any cache and
dirty state) a second `fold()` with no substitutions after a first `fold()`
with no substitutions is a no-op: it returns the identical expression (same
root tree, same caches), and the refold marks no rewrite (both `fold` and
the node-level `$onNodeFold` are total in this model, so no error can be
thrown). -/
theorem C7_fold_idempotent (e : Expression) :
    (e.fold none).fold none = e.fold none ∧
    foldNode none (e.fold none).root = ((e.fold none).root, false) := by
  have key : ∀ cm, foldNode none (foldNode cm e.root).1 =
      ((foldNode cm e.root).1, false) := fun cm => foldNode_refold cm e.root
  constructor
  · show ((e.fold none).fold none) = e.fold none
    simp only [Expression.fold, Expression.checkDirty]
    by_cases hd : (e.dirty || (foldNode none e.root).2) = true
    · simp [hd, key]
    · simp [hd, key]
  · simp only [Expression.fold, Expression.checkDirty]
    by_cases hd : (e.dirty || (foldNode none e.root).2) = true
    · simp [hd, key]
    · simp [hd, key]

/-- A successful `get?` splits `drop` as a cons. -/
theorem drop_get? {α : Type} (s : List α) (j : Nat) (c : α)
    (h : s.get? j = some c) : s.drop j = c :: s.drop (j + 1) := by
  induction s generalizing j with
  | nil => exact absurd h (by simp [List.get?])
  | cons a t ih =>
      cases j with
      | zero =>
          have h' : a = c := by
            have : some a = some c := h
            injection this
          simp [h']
      | succ k =>
          have h' : t.get? k = some c := h
          simpa [List.drop] using ih k h'

/-- At a `.` immediately followed by a digit, the numeric-literal regex
matches a literal that starts with the `.` (the `\d*` part matches empty). -/
theorem matchValue_dot (s : List Char) (j : Nat) (c : Char)
    (hdot : s.get? j = some '.') (hc : s.get? (j + 1) = some c)
    (hdig : Category c.toNat = .digit) :
    ∃ tail, matchValue s j = '.' :: tail := by
  have hdrop : s.drop j = '.' :: s.drop (j + 1) := drop_get? s j '.' hdot
  have hdropc : s.drop (j + 1) = c :: s.drop (j + 2) := drop_get? s (j + 1) c hc
  have hd1 : digitsFrom s j = [] := by
    rw [digitsFrom, hdrop]
    rfl
  have hd2 : digitsFrom s (j + 1) =
      c :: (s.drop (j + 2)).takeWhile (fun c => Category c.toNat == Cat.digit) := by
    rw [digitsFrom, hdropc]
    simp [List.takeWhile_cons, hdig]
  have hm : mantissaAt s j =
      '.' :: c :: (s.drop (j + 2)).takeWhile (fun c => Category c.toNat == Cat.digit) := by
    unfold mantissaAt
    rw [hd1]
    simp only [List.length_nil, Nat.add_zero, hdot, hd2]
    simp
  have hunf : matchValue s j =
      mantissaAt s j ++ expPartAt s (j + (mantissaAt s j).length) := rfl
  rw [hunf, hm]
  exact ⟨_, rfl⟩

/-- C6: during tokenizing, when a digit is reached and the immediately
preceding input character is a lone `.` just emitted as a single-character
punctuation token (the last token, with data `"."`), that token is discarded
and the numeric literal is re-scanned starting at the `.` — the scanned
literal begins with the `.` as its decimal point; consequently `".5"`
tokenizes to the single numeric literal `.5` (value ½) and `"1 + .5"` to
`1`, `+`, `.5` with no `.` punctuation token. -/
theorem C6_decimal_point_backtracking :
    (∀ (env : Environment) (s : List Char) (f i : Nat) (ts : List Token)
        (tok : Token) (c : Char),
      s.get? i = some c →
      Category c.toNat = .digit →
      ts.getLast? = some tok →
      tok.data = "." →
      0 < i →
      s.get? (i - 1) = some '.' →
      (tokLoop env s (f + 1) i ts =
        tokLoop env s f (i - 1 + (matchValue s (i - 1)).length)
          (ts.dropLast ++ [Token.mk .value (i - 1) ⟨matchValue s (i - 1)⟩
            (jsParseFloat (matchValue s (i - 1)))]) ∧
       ∃ tail, matchValue s (i - 1) = '.' :: tail)) ∧
    tokenize xexEnv ".5" = .ok [Token.mk .value 0 ".5" (.fin Q.half)] ∧
    tokenize xexEnv "1 + .5" =
      .ok [Token.mk .value 0 "1" (.fin 1), Token.mk .punct 2 "+" .nan,
           Token.mk .value 4 ".5" (.fin Q.half)] := by
  refine ⟨?_, by decide, by decide⟩
  intro env s f i ts tok c h1 h2 hlast hdata hi hdot
  have hcond : 0 < i ∧ lastData ts = "." ∧ s.get? (i - 1) = some '.' :=
    ⟨hi, by simp [lastData, hlast, hdata], hdot⟩
  constructor
  · simp only [tokLoop, h1, h2]
    rw [if_pos hcond]
  · have hi1 : i - 1 + 1 = i := Nat.succ_pred_eq_of_pos hi
    exact matchValue_dot s (i - 1) c hdot (by rw [hi1]; exact h1) h2

/-- C6 witness: the backtracking step applied at the concrete state reached
while tokenizing `".5"` — a lone `.` token emitted at offset 0 and the
scanner at the digit `5`. -/
theorem C6_decimal_point_backtracking_witness :
    tokLoop xexEnv ".5".data 4 1 [Token.mk .punct 0 "." .nan] =
      tokLoop xexEnv ".5".data 3 (1 - 1 + (matchValue ".5".data (1 - 1)).length)
        ([Token.mk .punct 0 "." .nan].dropLast ++
          [Token.mk .value (1 - 1) ⟨matchValue ".5".data (1 - 1)⟩
            (jsParseFloat (matchValue ".5".data (1 - 1)))]) ∧
    ∃ tail, matchValue ".5".data (1 - 1) = '.' :: tail :=
  C6_decimal_point_backtracking.1 xexEnv ".5".data 3 1
    [Token.mk .punct 0 "." .nan] (Token.mk .punct 0 "." .nan) '5'
    (by decide) (by decide) (by decide) (by decide) (by decide) (by decide)

/-- A number with `isNaNB = false` is not `nan`. -/
theorem ne_nan_of_not_isNaNB {x : JSNum} (h : x.isNaNB = false) : x ≠ .nan := by
  cases x <;> simp_all [JSNum.isNaNB]

/-- `jleB` is reflexive on non-NaN numbers. -/
theorem jleB_refl (x : JSNum) (h : x.isNaNB = false) :
    JSNum.jleB x x = true := by
  cases x <;> simp_all [JSNum.isNaNB, JSNum.jleB, Q.leB]

/-- `jleB` is total on non-NaN numbers. -/
theorem jleB_total (x y : JSNum) (hx : x.isNaNB = false)
    (hy : y.isNaNB = false) (h : JSNum.jleB x y = false) :
    JSNum.jleB y x = true := by
  cases x <;> cases y <;> simp_all [JSNum.isNaNB, JSNum.jleB, Q.leB]
  omega

/-- `jleB` is transitive. -/
theorem jleB_trans (x y z : JSNum) (hxy : JSNum.jleB x y = true)
    (hyz : JSNum.jleB y z = true) : JSNum.jleB x z = true := by
  cases x <;> cases y <;> cases z <;> simp_all [JSNum.jleB, Q.leB]
  case fin.fin.fin a b c =>
    have hb : (0 : Int) < b.den := Int.natCast_pos.mpr b.den_pos
    nlinarith [Int.natCast_pos.mpr a.den_pos, Int.natCast_pos.mpr c.den_pos,
      mul_le_mul_of_nonneg_right hxy (Int.natCast_nonneg c.den),
      mul_le_mul_of_nonneg_right hyz (Int.natCast_nonneg a.den)]

/-- The NaN-skipping fold of `minmaxval`: starting from a non-NaN value, the
result is non-NaN, is the start value or one of the non-NaN list elements,
and `cmp`-bounds the start value and every non-NaN element. -/
theorem minmaxval_foldl (op : JSNum → JSNum → JSNum)
    (cmp : JSNum → JSNum → Bool)
    (hchoice : ∀ x y, x.isNaNB = false → y.isNaNB = false →
      op x y = x ∨ op x y = y)
    (hbound : ∀ x y, x.isNaNB = false → y.isNaNB = false →
      cmp (op x y) x = true ∧ cmp (op x y) y = true)
    (htrans : ∀ x y z, cmp x y = true → cmp y z = true → cmp x z = true)
    (hrefl : ∀ x, x.isNaNB = false → cmp x x = true) :
    ∀ (rest : List JSNum) (x : JSNum), x.isNaNB = false →
      (rest.foldl (fun a y => if y.isNaNB then a else op a y) x).isNaNB = false ∧
      ((rest.foldl (fun a y => if y.isNaNB then a else op a y) x) = x ∨
        (rest.foldl (fun a y => if y.isNaNB then a else op a y) x) ∈
          rest.filter (fun y => !y.isNaNB)) ∧
      cmp (rest.foldl (fun a y => if y.isNaNB then a else op a y) x) x = true ∧
      (∀ y ∈ rest.filter (fun y => !y.isNaNB),
        cmp (rest.foldl (fun a y => if y.isNaNB then a else op a y) x) y = true) := by
  intro rest
  induction rest with
  | nil =>
      intro x hx
      exact ⟨hx, Or.inl rfl, hrefl x hx, by simp⟩
  | cons y t ih =>
      intro x hx
      by_cases hy : y.isNaNB = true
      · have step : (y :: t).foldl (fun a y => if y.isNaNB then a else op a y) x =
            t.foldl (fun a y => if y.isNaNB then a else op a y) x := by
          simp [List.foldl_cons, hy]
        have hfil : (y :: t).filter (fun y => !y.isNaNB) =
            t.filter (fun y => !y.isNaNB) := by simp [hy]
        obtain ⟨h1, h2, h3, h4⟩ := ih x hx
        exact ⟨by rwa [step], by rw [step, hfil]; exact h2, by rwa [step],
          by rw [step, hfil]; exact h4⟩
      · have hy' : y.isNaNB = false := by simpa using hy
        have hx' : (op x y).isNaNB = false := by
          rcases hchoice x y hx hy' with h | h <;> rw [h] <;> assumption
        have step : (y :: t).foldl (fun a y => if y.isNaNB then a else op a y) x =
            t.foldl (fun a y => if y.isNaNB then a else op a y) (op x y) := by
          simp [List.foldl_cons, hy']
        have hfil : (y :: t).filter (fun y => !y.isNaNB) =
            y :: t.filter (fun y => !y.isNaNB) := by simp [hy']
        obtain ⟨h1, h2, h3, h4⟩ := ih (op x y) hx'
        obtain ⟨hbx, hby⟩ := hbound x y hx hy'
        refine ⟨by rwa [step], ?_, ?_, ?_⟩
        · rw [step, hfil]
          rcases h2 with h2 | h2
          · rcases hchoice x y hx hy' with hc | hc
            · exact Or.inl (h2.trans hc)
            · rw [h2, hc]
              exact Or.inr (List.mem_cons_self _ _)
          · exact Or.inr (List.mem_cons_of_mem _ h2)
        · rw [step]
          exact htrans _ _ _ h3 hbx
        · rw [step, hfil]
          intro z hz
          rcases List.mem_cons.mp hz with hz | hz
          · subst hz
            exact htrans _ _ _ h3 hby
          · exact h4 z hz

/-- Filtering the non-NaN elements ignores the NaN prefix dropped by
`dropWhile`. -/
theorem filter_dropWhile_nan (args : List JSNum) :
    args.filter (fun y => !y.isNaNB) =
      (args.dropWhile JSNum.isNaNB).filter (fun y => !y.isNaNB) := by
  induction args with
  | nil => rfl
  | cons a t ih =>
      by_cases ha : a.isNaNB = true
      · simp [List.dropWhile_cons, ha, ih]
      · simp [List.dropWhile_cons, ha]

/-- The head surviving `dropWhile isNaNB` is not NaN. -/
theorem dropWhile_nan_head (args : List JSNum) (x : JSNum) (rest : List JSNum)
    (h : args.dropWhile JSNum.isNaNB = x :: rest) : x.isNaNB = false := by
  induction args with
  | nil => simp [List.dropWhile] at h
  | cons a t ih =>
      by_cases ha : a.isNaNB = true
      · rw [List.dropWhile_cons, if_pos ha] at h
        exact ih h
      · rw [List.dropWhile_cons, if_neg ha] at h
        cases h
        simpa using ha

/-- A NaN-absorbing fold is NaN from a NaN accumulator. -/
theorem foldl_nan_acc (op : JSNum → JSNum → JSNum)
    (h1 : ∀ y, op .nan y = .nan) :
    ∀ l : List JSNum, l.foldl op .nan = .nan := by
  intro l
  induction l with
  | nil => rfl
  | cons a t ih => simp [List.foldl_cons, h1, ih]

/-- A NaN-absorbing fold is NaN whenever some element is NaN. -/
theorem foldl_nan_mem (op : JSNum → JSNum → JSNum)
    (h1 : ∀ y, op .nan y = .nan) (h2 : ∀ a, op a .nan = .nan) :
    ∀ (l : List JSNum) (acc : JSNum), JSNum.nan ∈ l → l.foldl op acc = .nan := by
  intro l
  induction l with
  | nil => intro acc h; simp at h
  | cons a t ih =>
      intro acc h
      rcases List.mem_cons.mp h with h | h
      · subst h
        simp [List.foldl_cons, h2, foldl_nan_acc op h1]
      · exact ih _ h

/-- `jsMin2` of two non-NaN numbers is one of them. -/
theorem jsMin2_choice (x y : JSNum) (hx : x.isNaNB = false)
    (hy : y.isNaNB = false) :
    JSNum.jsMin2 x y = x ∨ JSNum.jsMin2 x y = y := by
  unfold JSNum.jsMin2
  rw [hx, hy]
  rw [if_neg (by simp)]
  by_cases h : JSNum.jleB x y = true
  · rw [if_pos h]
    exact Or.inl rfl
  · rw [if_neg h]
    exact Or.inr rfl

/-- `jsMin2` of two non-NaN numbers bounds both. -/
theorem jsMin2_bound (x y : JSNum) (hx : x.isNaNB = false)
    (hy : y.isNaNB = false) :
    JSNum.jleB (JSNum.jsMin2 x y) x = true ∧
    JSNum.jleB (JSNum.jsMin2 x y) y = true := by
  simp only [JSNum.jsMin2, hx, hy, Bool.or_self, Bool.false_or, if_neg]
  by_cases h : JSNum.jleB x y = true
  · simp [h, jleB_refl x hx]
  · have h' : JSNum.jleB x y = false := by simpa using h
    simp [h', jleB_total x y hx hy h', jleB_refl y hy]

/-- `jsMax2` of two non-NaN numbers is one of them. -/
theorem jsMax2_choice (x y : JSNum) (hx : x.isNaNB = false)
    (hy : y.isNaNB = false) :
    JSNum.jsMax2 x y = x ∨ JSNum.jsMax2 x y = y := by
  unfold JSNum.jsMax2
  rw [hx, hy]
  rw [if_neg (by simp)]
  by_cases h : JSNum.jleB y x = true
  · rw [if_pos h]
    exact Or.inl rfl
  · rw [if_neg h]
    exact Or.inr rfl

/-- `jsMax2` of two non-NaN numbers dominates both. -/
theorem jsMax2_bound (x y : JSNum) (hx : x.isNaNB = false)
    (hy : y.isNaNB = false) :
    JSNum.jleB x (JSNum.jsMax2 x y) = true ∧
    JSNum.jleB y (JSNum.jsMax2 x y) = true := by
  simp only [JSNum.jsMax2, hx, hy, Bool.or_self, Bool.false_or, if_neg]
  by_cases h : JSNum.jleB y x = true
  · simp [h, jleB_refl x hx]
  · have h' : JSNum.jleB y x = false := by simpa using h
    simp [h', jleB_total y x hy hx h', jleB_refl y hy]

/-- Characterization of `minmaxval op`: NaN exactly when no non-NaN argument
exists; otherwise one of the non-NaN arguments, `cmp`-bounding all of them. -/
theorem minmaxval_spec (op : JSNum → JSNum → JSNum)
    (cmp : JSNum → JSNum → Bool)
    (hchoice : ∀ x y, x.isNaNB = false → y.isNaNB = false →
      op x y = x ∨ op x y = y)
    (hbound : ∀ x y, x.isNaNB = false → y.isNaNB = false →
      cmp (op x y) x = true ∧ cmp (op x y) y = true)
    (htrans : ∀ x y z, cmp x y = true → cmp y z = true → cmp x z = true)
    (hrefl : ∀ x, x.isNaNB = false → cmp x x = true)
    (args : List JSNum) :
    (minmaxval op args = .nan ↔ args.filter (fun y => !y.isNaNB) = []) ∧
    (args.filter (fun y => !y.isNaNB) ≠ [] →
      minmaxval op args ∈ args.filter (fun y => !y.isNaNB) ∧
      ∀ y ∈ args.filter (fun y => !y.isNaNB), cmp (minmaxval op args) y = true) := by
  have hunf : minmaxval op args =
      (match args.dropWhile JSNum.isNaNB with
       | [] => JSNum.nan
       | x :: rest => rest.foldl (fun a y => if y.isNaNB then a else op a y) x) :=
    rfl
  rw [filter_dropWhile_nan, hunf]
  cases hdw : args.dropWhile JSNum.isNaNB with
  | nil => simp
  | cons x rest =>
      have hx : x.isNaNB = false := dropWhile_nan_head args x rest hdw
      have hfil : (x :: rest).filter (fun y => !y.isNaNB) =
          x :: rest.filter (fun y => !y.isNaNB) := by simp [hx]
      have hred : (match x :: rest with
          | [] => JSNum.nan
          | x :: rest => rest.foldl (fun a y => if y.isNaNB then a else op a y) x) =
          rest.foldl (fun a y => if y.isNaNB then a else op a y) x := rfl
      obtain ⟨h1, h2, h3, h4⟩ :=
        minmaxval_foldl op cmp hchoice hbound htrans hrefl rest x hx
      rw [hred, hfil]
      constructor
      · constructor
        · intro h
          rw [h] at h1
          simp [JSNum.isNaNB] at h1
        · intro h
          simp at h
      · intro _
        refine ⟨?_, ?_⟩
        · rcases h2 with h2 | h2
          · rw [h2]
            exact List.mem_cons_self _ _
          · exact List.mem_cons_of_mem _ h2
        · intro y hy
          rcases List.mem_cons.mp hy with hy | hy
          · subst hy
            exact h3
          · exact h4 y hy

/-- C9: for every argument list of two or more numbers, `minval`/`maxval`
(the `minmaxval` combinator over binary `Math.min`/`Math.max`) return a
minimum/maximum over the non-NaN arguments — a non-NaN argument that bounds
(resp. dominates) every non-NaN argument — and return NaN exactly when every
argument is NaN; while `min`/`max` (variadic `Math.min`/`Math.max`) return
NaN whenever at least one argument is NaN. -/
theorem C9_minmax_nan_semantics (args : List JSNum) (_hlen : 2 ≤ args.length) :
    (minmaxval JSNum.jsMin2 args = .nan ↔
      args.filter (fun y => !y.isNaNB) = []) ∧
    (args.filter (fun y => !y.isNaNB) ≠ [] →
      minmaxval JSNum.jsMin2 args ∈ args.filter (fun y => !y.isNaNB) ∧
      ∀ y ∈ args.filter (fun y => !y.isNaNB),
        JSNum.jleB (minmaxval JSNum.jsMin2 args) y = true) ∧
    (minmaxval JSNum.jsMax2 args = .nan ↔
      args.filter (fun y => !y.isNaNB) = []) ∧
    (args.filter (fun y => !y.isNaNB) ≠ [] →
      minmaxval JSNum.jsMax2 args ∈ args.filter (fun y => !y.isNaNB) ∧
      ∀ y ∈ args.filter (fun y => !y.isNaNB),
        JSNum.jleB y (minmaxval JSNum.jsMax2 args) = true) ∧
    (args.filter (fun y => !y.isNaNB) = [] ↔ ∀ x ∈ args, x.isNaNB = true) ∧
    ((∃ x ∈ args, x.isNaNB = true) →
      jsMinList args = .nan ∧ jsMaxList args = .nan) := by
  have hmin := minmaxval_spec JSNum.jsMin2 JSNum.jleB jsMin2_choice jsMin2_bound
    jleB_trans jleB_refl args
  have hmax := minmaxval_spec JSNum.jsMax2 (fun a b => JSNum.jleB b a)
    jsMax2_choice
    (fun x y hx hy => jsMax2_bound x y hx hy)
    (fun x y z h1 h2 => jleB_trans z y x h2 h1)
    jleB_refl args
  refine ⟨hmin.1, hmin.2, hmax.1, hmax.2, ?_, ?_⟩
  · constructor
    · intro h x hx
      by_cases hn : x.isNaNB = true
      · exact hn
      · have hnn : x.isNaNB = false := by simpa using hn
        have hmem : x ∈ args.filter (fun y => !y.isNaNB) :=
          List.mem_filter.mpr ⟨hx, by simp [hnn]⟩
        rw [h] at hmem
        simp at hmem
    · intro h
      simp only [List.filter_eq_nil_iff]
      intro x hx
      simp [h x hx]
  · intro ⟨x, hx, hnan⟩
    have hx' : JSNum.nan ∈ args := by
      cases x <;> simp_all [JSNum.isNaNB]
    constructor
    · exact foldl_nan_mem JSNum.jsMin2 (by intro y; simp [JSNum.jsMin2, JSNum.isNaNB])
        (by intro a; simp [JSNum.jsMin2, JSNum.isNaNB]) args .pinf hx'
    · exact foldl_nan_mem JSNum.jsMax2 (by intro y; simp [JSNum.jsMax2, JSNum.isNaNB])
        (by intro a; simp [JSNum.jsMax2, JSNum.isNaNB]) args .ninf hx'

/-- C9 witness: the semantics at the concrete list `[NaN, 3, 1]`. -/
theorem C9_minmax_nan_semantics_witness :
    (minmaxval JSNum.jsMin2 [.nan, 3, 1] ∈
      ([.nan, 3, 1] : List JSNum).filter (fun y => !y.isNaNB) ∧
     ∀ y ∈ ([.nan, 3, 1] : List JSNum).filter (fun y => !y.isNaNB),
       JSNum.jleB (minmaxval JSNum.jsMin2 [.nan, 3, 1]) y = true) ∧
    jsMinList [.nan, 3, 1] = .nan ∧ jsMaxList [.nan, 3, 1] = .nan :=
  ⟨(C9_minmax_nan_semantics [.nan, 3, 1] (by decide)).2.1 (by decide),
   (C9_minmax_nan_semantics [.nan, 3, 1] (by decide)).2.2.2.2.2
     ⟨.nan, by decide, by decide⟩⟩

/-- C1: with the ternary construct (modelled from the spec, absent from
src/xex.js v0.0.2), (i) for all well-formed sub-expressions: whenever the
binary-expression parser consumes the tokens of `cond` and stops at `?`, and
the conditional parser consumes the tokens of `a` up to `:` and the tokens of
`b`, parsing `cond ? a : b` succeeds and produces the dedicated 3-ary
conditional node `cond c a b` (never a Binary or Call); (ii) evaluation of a
conditional node evaluates the condition and then *only* the branch selected
by its truthiness — the trace of invoked `evaluate` callbacks is exactly the
condition's trace followed by the selected branch's trace, so a callback
invoked only by the untaken branch never runs; (iii) concretely,
`"x ? 2 : 3"` parses to the conditional node over the variable `x`, and
(iv) evaluating the parse of `"x ? a() : b()"` (with tracked unsafe 0-ary
functions `a`, `b`) with `x = 1` yields 1 invoking only `a`, and with
`x = 0` yields 0 invoking only `b` — the repository's laziness test. -/
theorem C1_ternary_conditional :
    (∀ (env : Environment) (opts : Options) (f : Nat)
        (ta tb : List Token) (tq tcol : Token) (c a b : Node)
        (ts : List Token),
      tq.type = .punct → tq.data = "?" → tcol.data = ":" →
      parseCore env opts (parseCond env opts f) ts =
        .ok (c, tq :: (ta ++ tcol :: tb)) →
      parseCond env opts f (ta ++ tcol :: tb) = .ok (a, tcol :: tb) →
      parseCond env opts f tb = .ok (b, []) →
      parseCond env opts (f + 1) ts = .ok (.cond c a b, [])) ∧
    (∀ (v : String → JSNum) (c t e : Node),
      (evalT v (.cond c t e)).2 =
        (evalT v c).2 ++
          (evalT v (if (evalT v c).1.truthy then t else e)).2 ∧
      (evalT v (.cond c t e)).1 =
        (evalT v (if (evalT v c).1.truthy then t else e)).1 ∧
      (∀ n : String, (evalT v c).1.truthy = true →
        n ∉ (evalT v c).2 → n ∉ (evalT v t).2 →
        n ∉ (evalT v (.cond c t e)).2)) ∧
    rootOf (xexDefault.expSpec "x ? 2 : 3" Options.default) =
      some (.cond (.var "x") (.val 2) (.val 3)) ∧
    (∀ root, rootOf (envAB.expSpec "x ? a() : b()" Options.default) = some root →
      (evalT (fun n => if n = "x" then 1 else .nan) root = (1, ["a"]) ∧
       evalT (fun n => if n = "x" then 0 else .nan) root = (0, ["b"]))) := by
  refine ⟨?_, ?_, rfl, ?_⟩
  · intro env opts f ta tb tq tcol c a b ts hty hq hcol hcore ha hb
    simp only [parseCond, hcore, Except.bind, hty, hq, hcol]
    simp only [bind, Except.bind, ha, hb]
    simp [hty, hq, hcol]
    rfl
  · intro v c t e
    refine ⟨?_, ?_, ?_⟩
    · simp only [evalT]
      split <;> simp_all
    · simp only [evalT]
      split <;> simp_all
    · intro n htr hnc hnt
      simp only [evalT, htr, if_pos]
      simp [List.mem_append, hnc, hnt]
  · intro root hroot
    have hcomp : rootOf (envAB.expSpec "x ? a() : b()" Options.default) =
        some (.cond (.var "x")
          (.call "a" ((envAB.get "a").getD dummyDef) [])
          (.call "b" ((envAB.get "b").getD dummyDef) [])) := rfl
    rw [hcomp] at hroot
    injection hroot with h
    subst h
    constructor <;> rfl

/-- C1 witness: the composition rule applied to the concrete token stream of
`"1 ? 2 : 3"`, and the laziness statement applied to a conditional whose
untaken branch contains a tracked call `b()`. -/
theorem C1_ternary_conditional_witness :
    parseCond xexDefault Options.default 6
      [Token.mk .value 0 "1" (.fin 1), Token.mk .punct 2 "?" .nan,
       Token.mk .value 4 "2" (.fin 2), Token.mk .punct 6 ":" .nan,
       Token.mk .value 8 "3" (.fin 3)] =
      .ok (.cond (.val 1) (.val 2) (.val 3), []) ∧
    "b" ∉ (evalT (fun _ => JSNum.nan)
      (.cond (.val 1) (.val 2) (.call "b" dummyDef []))).2 :=
  ⟨C1_ternary_conditional.1 xexDefault Options.default 5
      [Token.mk .value 4 "2" (.fin 2)] [Token.mk .value 8 "3" (.fin 3)]
      (Token.mk .punct 2 "?" .nan) (Token.mk .punct 6 ":" .nan)
      (.val 1) (.val 2) (.val 3)
      [Token.mk .value 0 "1" (.fin 1), Token.mk .punct 2 "?" .nan,
       Token.mk .value 4 "2" (.fin 2), Token.mk .punct 6 ":" .nan,
       Token.mk .value 8 "3" (.fin 3)]
      rfl rfl rfl rfl rfl rfl,
   (C1_ternary_conditional.2.1 (fun _ => JSNum.nan) (.val 1) (.val 2)
      (.call "b" dummyDef [])).2.2 "b" rfl (by simp [evalT]) (by simp [evalT])⟩

/-- A successful `get?` address is in range. -/
theorem get?_some_lt {α : Type} {h : List α} {a : Nat} {c : α}
    (hg : h.get? a = some c) : a < h.length := by
  by_contra hlt
  rw [List.get?_eq_none.mpr (Nat.le_of_not_lt hlt)] at hg
  cases hg

/-- `sameSkel` is reflexive. -/
theorem sameSkel_refl (c : Cell) : sameSkel c c := by
  cases c <;> simp [sameSkel]

/-- `sameSkel` is transitive. -/
theorem sameSkel_trans {a b c : Cell} (h1 : sameSkel a b) (h2 : sameSkel b c) :
    sameSkel a c := by
  cases a <;> cases b <;> cases c <;> simp_all [sameSkel]

/-- `sameSkel` preserves being a `Var` cell. -/
theorem sameSkel_isVar {a b : Cell} (h : sameSkel a b) : isVarC b = isVarC a := by
  cases a <;> cases b <;> simp_all [sameSkel, isVarC]

/-- Reachability is transitive. -/
theorem Reach.trans {h : Heap} {a b c : Nat} (h1 : Reach h a b)
    (h2 : Reach h b c) : Reach h a c := by
  induction h1 with
  | refl _ => exact h2
  | step a b' c' cell hc hmem _ ih => exact Reach.step _ _ _ cell hc hmem (ih h2)

/-- One pointer-child step of reachability. -/
theorem Reach.child {h : Heap} {a b : Nat} {cell : Cell}
    (hc : h.get? a = some cell) (hb : b ∈ cellPtrs cell) : Reach h a b :=
  Reach.step a b b cell hc hb (Reach.refl b)

/-- Reachability transfers to a heap whose cells only lose pointers. -/
theorem Reach.mono {h h' : Heap}
    (hsub : ∀ x c', h'.get? x = some c' → ∃ c, h.get? x = some c ∧
      ∀ p ∈ cellPtrs c', p ∈ cellPtrs c)
    {b x : Nat} (hr : Reach h' b x) : Reach h b x := by
  induction hr with
  | refl a => exact Reach.refl a
  | step a b' c' cell hc hmem _ ih =>
      obtain ⟨c0, hc0, hp⟩ := hsub _ _ hc
      exact Reach.step _ _ _ c0 hc0 (hp _ hmem) ih

/-- From a `Var` cell only the cell itself is reachable. -/
theorem Reach.var {h : Heap} {a x : Nat} {nm : String}
    (hc : h.get? a = some (.varC nm)) (hr : Reach h a x) : x = a := by
  cases hr with
  | refl _ => rfl
  | step _ b _ cell hc' hmem _ =>
      rw [hc] at hc'
      injection hc' with hcell
      subst hcell
      simp [cellPtrs] at hmem

/-- In a closed heap, reachability from an in-range address stays in range
and is unaffected by extending the heap. -/
theorem Reach.prefixExt {h h' : Heap} (hpre : PrefixExt h h') (hcl : Closed h)
    {b x : Nat} (hb : b < h.length) (hr : Reach h' b x) :
    Reach h b x ∧ x < h.length := by
  induction hr with
  | refl a => exact ⟨Reach.refl a, hb⟩
  | step a b' c' cell hc hmem ih2 ih =>
      rw [hpre.2 a hb] at hc
      have hb' : b' < h.length := hcl a cell hc _ hmem
      obtain ⟨hr', hx⟩ := ih hb'
      exact ⟨Reach.step _ _ _ cell hc hmem hr', hx⟩

/-- The trivial fold frame. -/
theorem FoldFrame.refl (h : Heap) (R : Nat → Prop) : FoldFrame h h R :=
  ⟨rfl, fun _ hx => absurd rfl hx,
   fun _ c' hc => ⟨c', hc, sameSkel_refl c', fun _ hp => hp⟩⟩

/-- Weakening the changed-address predicate of a fold frame. -/
theorem FoldFrame.weaken {h h' : Heap} {R R' : Nat → Prop}
    (hf : FoldFrame h h' R) (hw : ∀ x, R x → R' x) : FoldFrame h h' R' :=
  ⟨hf.1, fun x hx => ⟨hw x (hf.2.1 x hx).1, (hf.2.1 x hx).2⟩, hf.2.2⟩

/-- Composing two fold frames (the second one's predicate translated back to
the original heap). -/
theorem FoldFrame.comp {h h₁ h₂ : Heap} {R R₂ : Nat → Prop}
    (hf1 : FoldFrame h h₁ R) (hf2 : FoldFrame h₁ h₂ R₂)
    (hw : ∀ x, R₂ x → R x) : FoldFrame h h₂ R := by
  refine ⟨hf2.1.trans hf1.1, ?_, ?_⟩
  · intro x hx
    by_cases hmid : h₂.get? x = h₁.get? x
    · exact hf1.2.1 x (fun he => hx (hmid.trans he))
    · obtain ⟨hr2, c₁, hc₁, hv₁⟩ := hf2.2.1 x hmid
      refine ⟨hw x hr2, ?_⟩
      obtain ⟨c0, hc0, hskel, _⟩ := hf1.2.2 x c₁ hc₁
      exact ⟨c0, hc0, by rw [← sameSkel_isVar hskel]; exact hv₁⟩
  · intro x c' hc'
    obtain ⟨c₁, hc₁, hs1, hp1⟩ := hf2.2.2 x c' hc'
    obtain ⟨c0, hc0, hs0, hp0⟩ := hf1.2.2 x c₁ hc₁
    exact ⟨c0, hc0, sameSkel_trans hs0 hs1, fun p hp => hp0 p (hp1 p hp)⟩

/-- `RefReach` from a pointer is plain reachability. -/
theorem refReach_ptr {h : Heap} {a x : Nat} :
    RefReach h (.ptr a) x ↔ Reach h a x := by
  constructor
  · rintro ⟨b, hb, hr⟩
    injection hb with hb
    subst hb
    exact hr
  · intro hr
    exact ⟨a, rfl, hr⟩

/-- Under a fold frame, a cell of the original heap is still present with
the same skeleton and no new pointers. -/
theorem FoldFrame.skelAt {h h₁ : Heap} {R : Nat → Prop}
    (hf : FoldFrame h h₁ R) {a : Nat} {c0 : Cell}
    (hc0 : h.get? a = some c0) :
    ∃ c₁, h₁.get? a = some c₁ ∧ sameSkel c0 c₁ ∧
      ∀ p ∈ cellPtrs c₁, p ∈ cellPtrs c0 := by
  cases hq : h₁.get? a with
  | none =>
      have := List.get?_eq_none.mp hq
      rw [hf.1] at this
      exact absurd (get?_some_lt hc0) (Nat.not_lt.mpr this)
  | some c₁ =>
      obtain ⟨c, hc, hs, hp⟩ := hf.2.2 a c₁ hq
      rw [hc0] at hc
      injection hc with hc
      subst hc
      exact ⟨c₁, rfl, hs, hp⟩

/-- Extending a fold frame by one in-place cell write that keeps the
skeleton and introduces no pointer outside the original cell. -/
theorem FoldFrame.write {h h₁ : Heap} {R : Nat → Prop}
    (hf : FoldFrame h h₁ R) {a : Nat} {c0 : Cell} (cNew : Cell)
    (hc0 : h.get? a = some c0) (hv : isVarC c0 = false)
    (hskel : sameSkel c0 cNew)
    (hsub : ∀ p ∈ cellPtrs cNew, p ∈ cellPtrs c0) (hRa : R a) :
    FoldFrame h (h₁.set a cNew) R := by
  have hlen : a < h₁.length := by
    rw [hf.1]
    exact get?_some_lt hc0
  refine ⟨by rw [List.length_set, hf.1], ?_, ?_⟩
  · intro x hx
    by_cases hxa : x = a
    · subst hxa
      exact ⟨hRa, c0, hc0, hv⟩
    · rw [List.get?_set_ne cNew _ (Ne.symm hxa)] at hx
      exact hf.2.1 x hx
  · intro x c' hc'
    by_cases hxa : x = a
    · subst hxa
      rw [List.get?_set_eq_of_lt _ hlen] at hc'
      injection hc' with hc'
      subst hc'
      exact ⟨c0, hc0, hskel, hsub⟩
    · rw [List.get?_set_ne cNew _ (Ne.symm hxa)] at hc'
      exact hf.2.2 x c' hc'


/-- The pointer-subset part of a fold frame, in the form `Reach.mono`
expects. -/
theorem FoldFrame.reachSub {h h' : Heap} {R : Nat → Prop}
    (hf : FoldFrame h h' R) :
    ∀ x c', h'.get? x = some c' → ∃ c, h.get? x = some c ∧
      ∀ p ∈ cellPtrs c', p ∈ cellPtrs c := by
  intro x c' hc'
  obtain ⟨c, h1, _, h3⟩ := hf.2.2 x c' hc'
  exact ⟨c, h1, h3⟩

mutual

/-- Frame property of the in-place fold: the heap keeps its length, only
non-`Var` cells reachable from the folded reference change, every cell keeps
its skeleton and can only lose pointers, and the returned reference is the
folded reference itself or a plain number. -/
theorem foldRefH_frame : ∀ (fuel : Nat) (cm : Option Cmap) (h : Heap)
    (r : Ref) (out : Heap × Ref × Bool), foldRefH fuel cm h r = .ok out →
    FoldFrame h out.1 (fun x => RefReach h r x) ∧
    (out.2.1 = r ∨ ∃ v, out.2.1 = .val v) := by
  intro fuel cm h r out hok
  match fuel, r with
  | 0, r => exact absurd hok (by simp [foldRefH])
  | fuel + 1, .val v =>
      simp only [foldRefH] at hok
      cases hok
      exact ⟨FoldFrame.refl h _, Or.inl rfl⟩
  | fuel + 1, .ptr a =>
      simp only [foldRefH] at hok
      cases hga : h.get? a with
      | none => simp only [hga] at hok; cases hok
      | some cell =>
          simp only [hga] at hok
          cases cell with
          | varC nm =>
              cases cm with
              | none =>
                  simp only at hok
                  cases hok
                  exact ⟨FoldFrame.refl h _, Or.inl rfl⟩
              | some m =>
                  simp only at hok
                  cases hlk : m.lookup nm with
                  | none =>
                      simp only [hlk] at hok
                      cases hok
                      exact ⟨FoldFrame.refl h _, Or.inl rfl⟩
                  | some v =>
                      simp only [hlk] at hok
                      cases hok
                      exact ⟨FoldFrame.refl h _, Or.inr ⟨v, rfl⟩⟩
          | unaryC n i v =>
              simp only [bind, Except.bind] at hok
              cases hrec : foldRefH fuel cm h v with
              | error e => simp only [hrec] at hok; cases hok
              | ok child =>
                  simp only [hrec] at hok
                  obtain ⟨ffc, refc⟩ := foldRefH_frame fuel cm h v child hrec
                  have ff1 : FoldFrame h child.1 (fun x => Reach h a x) := by
                    refine ffc.weaken ?_
                    rintro x ⟨b, hb, hr⟩
                    subst hb
                    refine (Reach.child hga ?_).trans hr
                    simp [cellPtrs, refPtrs]
                  obtain ⟨c₁, hga₁, hskel, hsubp⟩ := ff1.skelAt hga
                  obtain ⟨v₂, rfl⟩ : ∃ v₂, c₁ = Cell.unaryC n i v₂ := by
                    cases c₁ <;> simp_all [sameSkel]
                  have hset : setUnaryValue child.1 a child.2.1 =
                      child.1.set a (.unaryC n i child.2.1) := by
                    unfold setUnaryValue
                    rw [hga₁]
                  have hsubnew : ∀ p ∈ cellPtrs (Cell.unaryC n i child.2.1),
                      p ∈ cellPtrs (Cell.unaryC n i v) := by
                    rcases refc with hrc | ⟨w, hw⟩
                    · rw [hrc]
                      exact fun p hp => hp
                    · rw [hw]
                      intro p hp
                      simp [cellPtrs, refPtrs] at hp
                  have ff2 : FoldFrame h (setUnaryValue child.1 a child.2.1)
                      (fun x => Reach h a x) := by
                    rw [hset]
                    exact ff1.write (.unaryC n i child.2.1) hga (by simp [isVarC])
                      (by simp [sameSkel]) hsubnew (Reach.refl a)
                  have ffr : FoldFrame h (setUnaryValue child.1 a child.2.1)
                      (fun x => RefReach h (.ptr a) x) :=
                    ff2.weaken (fun x hx => refReach_ptr.mpr hx)
                  by_cases hcnd : (i.safe && isValRef child.2.1) = true
                  · rw [if_pos hcnd] at hok
                    cases hok
                    exact ⟨ffr, Or.inr ⟨_, rfl⟩⟩
                  · rw [if_neg hcnd] at hok
                    cases hok
                    exact ⟨ffr, Or.inl rfl⟩
          | binC n i l rr =>
              simp only [bind, Except.bind] at hok
              cases hrecl : foldRefH fuel cm h l with
              | error e => simp only [hrecl] at hok; cases hok
              | ok L =>
                  simp only [hrecl] at hok
                  obtain ⟨ffl, refl'⟩ := foldRefH_frame fuel cm h l L hrecl
                  have ff1 : FoldFrame h L.1 (fun x => Reach h a x) := by
                    refine ffl.weaken ?_
                    rintro x ⟨b, hb, hr⟩
                    subst hb
                    refine (Reach.child hga ?_).trans hr
                    simp [cellPtrs, refPtrs]
                  obtain ⟨c₁, hga₁, hskel, hsubp⟩ := ff1.skelAt hga
                  obtain ⟨l₂, r₂, rfl⟩ : ∃ l₂ r₂, c₁ = Cell.binC n i l₂ r₂ := by
                    cases c₁ <;> simp_all [sameSkel]
                  have hset : setBinLeft L.1 a L.2.1 =
                      L.1.set a (.binC n i L.2.1 r₂) := by
                    unfold setBinLeft
                    rw [hga₁]
                  have hsubnew : ∀ p ∈ cellPtrs (Cell.binC n i L.2.1 r₂),
                      p ∈ cellPtrs (Cell.binC n i l rr) := by
                    intro p hp
                    simp only [cellPtrs, List.mem_append] at hp ⊢
                    rcases hp with hp | hp
                    · left
                      rcases refl' with hrc | ⟨w, hw⟩
                      · rwa [hrc] at hp
                      · rw [hw] at hp
                        simp [refPtrs] at hp
                    · have hpc : p ∈ cellPtrs (Cell.binC n i l₂ r₂) := by
                        simp only [cellPtrs, List.mem_append]
                        exact Or.inr hp
                      have := hsubp p hpc
                      simpa only [cellPtrs, List.mem_append] using this
                  have ff2 : FoldFrame h (setBinLeft L.1 a L.2.1)
                      (fun x => Reach h a x) := by
                    rw [hset]
                    exact ff1.write (.binC n i L.2.1 r₂) hga (by simp [isVarC])
                      (by simp [sameSkel]) hsubnew (Reach.refl a)
                  have hlenL : a < L.1.length := by
                    rw [ff1.1]
                    exact get?_some_lt hga
                  have hgr : getBinRight (setBinLeft L.1 a L.2.1) a = r₂ := by
                    unfold getBinRight
                    rw [hset, List.get?_set_eq_of_lt _ hlenL]
                  simp only [hgr] at hok
                  cases hrecr : foldRefH fuel cm (setBinLeft L.1 a L.2.1) r₂ with
                  | error e => simp only [hrecr] at hok; cases hok
                  | ok Rr =>
                      simp only [hrecr] at hok
                      obtain ⟨ffr2, refr⟩ :=
                        foldRefH_frame fuel cm (setBinLeft L.1 a L.2.1) r₂ Rr hrecr
                      have hmap : ∀ x, RefReach (setBinLeft L.1 a L.2.1) r₂ x →
                          Reach h a x := by
                        rintro x ⟨b, hb, hr⟩
                        have hbc : b ∈ cellPtrs (Cell.binC n i l rr) := by
                          apply hsubp
                          simp only [cellPtrs, List.mem_append]
                          right
                          rw [hb]
                          simp [refPtrs]
                        have hreach : Reach h b x := Reach.mono ff2.reachSub hr
                        exact (Reach.child hga hbc).trans hreach
                      have ff3 : FoldFrame h Rr.1 (fun x => Reach h a x) :=
                        FoldFrame.comp ff2 ffr2 hmap
                      obtain ⟨c₃, hga₃, hskel₃, hsubp₃⟩ := ff3.skelAt hga
                      obtain ⟨l₃, r₃, rfl⟩ : ∃ l₃ r₃, c₃ = Cell.binC n i l₃ r₃ := by
                        cases c₃ <;> simp_all [sameSkel]
                      have hset2 : setBinRight Rr.1 a Rr.2.1 =
                          Rr.1.set a (.binC n i l₃ Rr.2.1) := by
                        unfold setBinRight
                        rw [hga₃]
                      have hsubnew2 : ∀ p ∈ cellPtrs (Cell.binC n i l₃ Rr.2.1),
                          p ∈ cellPtrs (Cell.binC n i l rr) := by
                        intro p hp
                        simp only [cellPtrs, List.mem_append] at hp
                        rcases hp with hp | hp
                        · apply hsubp₃
                          simp only [cellPtrs, List.mem_append]
                          exact Or.inl hp
                        · rcases refr with hrc | ⟨w, hw⟩
                          · rw [hrc] at hp
                            apply hsubp
                            simp only [cellPtrs, List.mem_append]
                            exact Or.inr hp
                          · rw [hw] at hp
                            simp [refPtrs] at hp
                      have ff4 : FoldFrame h (setBinRight Rr.1 a Rr.2.1)
                          (fun x => Reach h a x) := by
                        rw [hset2]
                        exact ff3.write (.binC n i l₃ Rr.2.1) hga (by simp [isVarC])
                          (by simp [sameSkel]) hsubnew2 (Reach.refl a)
                      have ffr4 : FoldFrame h (setBinRight Rr.1 a Rr.2.1)
                          (fun x => RefReach h (.ptr a) x) :=
                        ff4.weaken (fun x hx => refReach_ptr.mpr hx)
                      by_cases hcnd : (i.safe && isValRef L.2.1 && isValRef Rr.2.1) = true
                      · rw [if_pos hcnd] at hok
                        cases hok
                        exact ⟨ffr4, Or.inr ⟨_, rfl⟩⟩
                      · rw [if_neg hcnd] at hok
                        cases hok
                        exact ⟨ffr4, Or.inl rfl⟩
          | callC n i args =>
              simp only [bind, Except.bind] at hok
              cases hrec : foldArgsH fuel cm h a 0 with
              | error e => simp only [hrec] at hok; cases hok
              | ok A =>
                  simp only [hrec] at hok
                  have ffa := foldArgsH_frame fuel cm h a 0 A hrec
                  have ffr : FoldFrame h A.1 (fun x => RefReach h (.ptr a) x) :=
                    ffa.weaken (fun x hx => refReach_ptr.mpr hx)
                  cases hq : A.1.get? a with
                  | none =>
                      simp only [hq] at hok
                      cases hok
                      exact ⟨ffr, Or.inl rfl⟩
                  | some c₂ =>
                      simp only [hq] at hok
                      cases c₂ with
                      | callC n₂ i₂ args₂ =>
                          have hok2 : (if (i.safe && args₂.all isValRef) = true then
                                (Except.ok (A.1, Ref.val (i.eval (args₂.map refVal)), true) :
                                  Except Err (Heap × Ref × Bool))
                              else Except.ok (A.1, Ref.ptr a, A.2)) = Except.ok out := hok
                          by_cases hcnd : (i.safe && args₂.all isValRef) = true
                          · rw [if_pos hcnd] at hok2
                            cases hok2
                            exact ⟨ffr, Or.inr ⟨_, rfl⟩⟩
                          · rw [if_neg hcnd] at hok2
                            cases hok2
                            exact ⟨ffr, Or.inl rfl⟩
                      | varC nm =>
                          simp only at hok
                          cases hok
                          exact ⟨ffr, Or.inl rfl⟩
                      | unaryC n₂ i₂ v₂ =>
                          simp only at hok
                          cases hok
                          exact ⟨ffr, Or.inl rfl⟩
                      | binC n₂ i₂ l₂ r₂ =>
                          simp only at hok
                          cases hok
                          exact ⟨ffr, Or.inl rfl⟩

/-- Frame property of the argument-folding loop of a `Call` cell. -/
theorem foldArgsH_frame : ∀ (fuel : Nat) (cm : Option Cmap) (h : Heap)
    (a k : Nat) (out : Heap × Bool), foldArgsH fuel cm h a k = .ok out →
    FoldFrame h out.1 (fun x => Reach h a x) := by
  intro fuel cm h a k out hok
  match fuel with
  | 0 => exact absurd hok (by simp [foldArgsH])
  | fuel + 1 =>
      simp only [foldArgsH] at hok
      cases hga : h.get? a with
      | none =>
          simp only [hga] at hok
          cases hok
          exact FoldFrame.refl h _
      | some cell =>
          simp only [hga] at hok
          cases cell with
          | varC nm =>
              simp only at hok
              cases hok
              exact FoldFrame.refl h _
          | unaryC n i v =>
              simp only at hok
              cases hok
              exact FoldFrame.refl h _
          | binC n i l rr =>
              simp only at hok
              cases hok
              exact FoldFrame.refl h _
          | callC n i args =>
              cases hak : args.get? k with
              | none =>
                  simp only [hak] at hok
                  cases hok
                  exact FoldFrame.refl h _
              | some x =>
                  simp only [hak] at hok
                  simp only [bind, Except.bind] at hok
                  cases hrec : foldRefH fuel cm h x with
                  | error e => simp only [hrec] at hok; cases hok
                  | ok Rx =>
                      simp only [hrec] at hok
                      obtain ⟨ffx, refx⟩ := foldRefH_frame fuel cm h x Rx hrec
                      have hxmem : x ∈ args := List.get?_mem hak
                      have ff1 : FoldFrame h Rx.1 (fun y => Reach h a y) := by
                        refine ffx.weaken ?_
                        rintro y ⟨b, hb, hr⟩
                        refine (Reach.child hga ?_).trans hr
                        simp only [cellPtrs, List.mem_bind]
                        exact ⟨x, hxmem, by rw [hb]; simp [refPtrs]⟩
                      obtain ⟨c₁, hga₁, hskel, hsubp⟩ := ff1.skelAt hga
                      obtain ⟨args₂, rfl, hlen2⟩ :
                          ∃ args₂, c₁ = Cell.callC n i args₂ ∧
                            args.length = args₂.length := by
                        cases c₁ <;> simp_all [sameSkel]
                      have hset : setCallArg Rx.1 a k Rx.2.1 =
                          Rx.1.set a (.callC n i (args₂.set k Rx.2.1)) := by
                        unfold setCallArg
                        rw [hga₁]
                      have hsubnew : ∀ p ∈ cellPtrs (Cell.callC n i (args₂.set k Rx.2.1)),
                          p ∈ cellPtrs (Cell.callC n i args) := by
                        intro p hp
                        simp only [cellPtrs, List.mem_bind] at hp
                        obtain ⟨y, hy, hpy⟩ := hp
                        rcases List.mem_or_eq_of_mem_set hy with hy | hy
                        · apply hsubp
                          simp only [cellPtrs, List.mem_bind]
                          exact ⟨y, hy, hpy⟩
                        · subst hy
                          rcases refx with hrc | ⟨w, hw⟩
                          · rw [hrc] at hpy
                            simp only [cellPtrs, List.mem_bind]
                            exact ⟨x, hxmem, hpy⟩
                          · rw [hw] at hpy
                            simp [refPtrs] at hpy
                      have ff2 : FoldFrame h (setCallArg Rx.1 a k Rx.2.1)
                          (fun y => Reach h a y) := by
                        rw [hset]
                        refine ff1.write (.callC n i (args₂.set k Rx.2.1)) hga
                          (by simp [isVarC]) ?_ hsubnew (Reach.refl a)
                        simp only [sameSkel, List.length_set]
                        exact ⟨trivial, trivial, hlen2⟩
                      cases hrec2 : foldArgsH fuel cm (setCallArg Rx.1 a k Rx.2.1)
                          a (k + 1) with
                      | error e => simp only [hrec2] at hok; cases hok
                      | ok A2 =>
                          simp only [hrec2] at hok
                          have ffa2 := foldArgsH_frame fuel cm
                            (setCallArg Rx.1 a k Rx.2.1) a (k + 1) A2 hrec2
                          have ff3 : FoldFrame h A2.1 (fun y => Reach h a y) :=
                            FoldFrame.comp ff2 ffa2
                              (fun y hy => Reach.mono ff2.reachSub hy)
                          cases hok
                          exact ff3

end

/-- Extending a heap on the right leaves existing cells in place. -/
theorem prefixExt_append (h t : Heap) : PrefixExt h (h ++ t) := by
  constructor
  · simp
  · intro x hx
    exact List.get?_append hx

/-- `PrefixExt` composes. -/
theorem prefixExt_trans {h₁ h₂ h₃ : Heap} (a : PrefixExt h₁ h₂)
    (b : PrefixExt h₂ h₃) : PrefixExt h₁ h₃ := by
  refine ⟨le_trans a.1 b.1, fun x hx => ?_⟩
  rw [b.2 x (lt_of_lt_of_le hx a.1), a.2 x hx]

/-- A closed heap stays closed after appending a cell whose pointers are in
range of the extended heap. -/
theorem closed_append {h : Heap} {c : Cell} (hcl : Closed h)
    (hc : ∀ p ∈ cellPtrs c, p < h.length + 1) : Closed (h ++ [c]) := by
  intro x c' hx p hp
  have hxlen : x < h.length + 1 := by
    have := get?_some_lt hx
    simpa using this
  rcases Nat.lt_or_ge x h.length with hlt | hge
  · rw [List.get?_append hlt] at hx
    have := hcl x c' hx p hp
    simp only [List.length_append, List.length_singleton]
    omega
  · have hxeq : x = h.length := by omega
    subst hxeq
    rw [List.get?_concat_length] at hx
    injection hx with hx
    subst hx
    have := hc p hp
    simpa using this

/-- The executable closedness check implies the propositional one. -/
theorem closedB_closed {h : Heap} (hb : closedB h = true) : Closed h := by
  intro x c hx p hp
  have hmem : c ∈ h := List.get?_mem hx
  have h1 := (List.all_eq_true.mp hb) c hmem
  have h2 := (List.all_eq_true.mp h1) p hp
  exact of_decide_eq_true h2

mutual

/-- The deep clone only appends cells, keeps the heap closed, returns an
in-range reference, and every address of the original region reachable from
the clone is a shared `Var` cell. -/
theorem cloneRef_ok : ∀ (fuel : Nat) (h : Heap) (r : Ref) (out : Heap × Ref),
    Closed h → cloneRef fuel h r = .ok out →
    PrefixExt h out.1 ∧ Closed out.1 ∧
    (∀ b, out.2 = .ptr b → b < out.1.length) ∧
    (∀ x, RefReach out.1 out.2 x → x < h.length →
      ∃ nm, out.1.get? x = some (.varC nm)) := by
  intro fuel h r out hcl hok
  match fuel, r with
  | 0, r => exact absurd hok (by simp [cloneRef])
  | fuel + 1, .val v =>
      simp only [cloneRef] at hok
      cases hok
      refine ⟨⟨le_refl _, fun x _ => rfl⟩, hcl, ?_, ?_⟩
      · intro b hb
        cases hb
      · rintro x ⟨b, hb, -⟩ -
        cases hb
  | fuel + 1, .ptr a =>
      simp only [cloneRef] at hok
      cases hga : h.get? a with
      | none => simp only [hga] at hok; cases hok
      | some cell =>
          simp only [hga] at hok
          cases cell with
          | varC nm =>
              cases hok
              refine ⟨⟨le_refl _, fun x _ => rfl⟩, hcl, ?_, ?_⟩
              · intro b hb
                injection hb with hb
                subst hb
                exact get?_some_lt hga
              · rintro x ⟨b, hb, hr⟩ hx
                injection hb with hb
                subst hb
                have hxa := Reach.var hga hr
                subst hxa
                exact ⟨nm, hga⟩
          | unaryC n i v =>
              simp only [bind, Except.bind] at hok
              cases hrec : cloneRef fuel h v with
              | error e => simp only [hrec] at hok; cases hok
              | ok R =>
                  simp only [hrec] at hok
                  cases hok
                  obtain ⟨hpre1, hcl1, hbnd1, hvar1⟩ :=
                    cloneRef_ok fuel h v R hcl hrec
                  have hnewp : ∀ p ∈ cellPtrs (Cell.unaryC n i R.2),
                      p < R.1.length + 1 := by
                    intro p hp
                    simp only [cellPtrs] at hp
                    cases hR2 : R.2 with
                    | val w => rw [hR2] at hp; simp [refPtrs] at hp
                    | ptr b =>
                        rw [hR2] at hp
                        simp only [refPtrs, List.mem_singleton] at hp
                        subst hp
                        exact Nat.lt_succ_of_lt (hbnd1 p hR2)
                  refine ⟨prefixExt_trans hpre1 (prefixExt_append R.1 _),
                    closed_append hcl1 hnewp, ?_, ?_⟩
                  · intro b hb
                    injection hb with hb
                    subst hb
                    simp
                  · rintro x ⟨b, hb, hr⟩ hx
                    injection hb with hb
                    subst hb
                    cases hr with
                    | refl =>
                        exact absurd hx (not_lt.mpr hpre1.1)
                    | step _ b' _ cell' hc' hmem hr' =>
                        rw [List.get?_concat_length] at hc'
                        injection hc' with hc'
                        subst hc'
                        simp only [cellPtrs] at hmem
                        cases hR2 : R.2 with
                        | val w => rw [hR2] at hmem; simp [refPtrs] at hmem
                        | ptr b₂ =>
                            rw [hR2] at hmem
                            simp only [refPtrs, List.mem_singleton] at hmem
                            subst hmem
                            have hb2 : b' < R.1.length := hbnd1 b' hR2
                            obtain ⟨hr1, hx1⟩ := Reach.prefixExt
                              (prefixExt_append R.1 _) hcl1 hb2 hr'
                            obtain ⟨nm, hnm⟩ := hvar1 x ⟨b', hR2, hr1⟩ hx
                            exact ⟨nm, by rw [List.get?_append hx1]; exact hnm⟩
          | binC n i l rr =>
              simp only [bind, Except.bind] at hok
              cases hrecl : cloneRef fuel h l with
              | error e => simp only [hrecl] at hok; cases hok
              | ok L =>
                  simp only [hrecl] at hok
                  obtain ⟨hpre1, hcl1, hbnd1, hvar1⟩ :=
                    cloneRef_ok fuel h l L hcl hrecl
                  cases hrecr : cloneRef fuel L.1 rr with
                  | error e => simp only [hrecr] at hok; cases hok
                  | ok Rr =>
                      simp only [hrecr] at hok
                      cases hok
                      obtain ⟨hpre2, hcl2, hbnd2, hvar2⟩ :=
                        cloneRef_ok fuel L.1 rr Rr hcl1 hrecr
                      have hnewp : ∀ p ∈ cellPtrs (Cell.binC n i L.2 Rr.2),
                          p < Rr.1.length + 1 := by
                        intro p hp
                        simp only [cellPtrs, List.mem_append] at hp
                        rcases hp with hp | hp
                        · cases hL2 : L.2 with
                          | val w => rw [hL2] at hp; simp [refPtrs] at hp
                          | ptr b =>
                              rw [hL2] at hp
                              simp only [refPtrs, List.mem_singleton] at hp
                              subst hp
                              have := lt_of_lt_of_le (hbnd1 p hL2) hpre2.1
                              omega
                        · cases hR2 : Rr.2 with
                          | val w => rw [hR2] at hp; simp [refPtrs] at hp
                          | ptr b =>
                              rw [hR2] at hp
                              simp only [refPtrs, List.mem_singleton] at hp
                              subst hp
                              exact Nat.lt_succ_of_lt (hbnd2 p hR2)
                      refine ⟨prefixExt_trans hpre1 (prefixExt_trans hpre2
                          (prefixExt_append Rr.1 _)),
                        closed_append hcl2 hnewp, ?_, ?_⟩
                      · intro b hb
                        injection hb with hb
                        subst hb
                        simp
                      · rintro x ⟨b, hb, hr⟩ hx
                        injection hb with hb
                        subst hb
                        cases hr with
                        | refl =>
                            have : h.length ≤ Rr.1.length :=
                              le_trans hpre1.1 hpre2.1
                            omega
                        | step _ b' _ cell' hc' hmem hr' =>
                            rw [List.get?_concat_length] at hc'
                            injection hc' with hc'
                            subst hc'
                            simp only [cellPtrs, List.mem_append] at hmem
                            rcases hmem with hmem | hmem
                            · cases hL2 : L.2 with
                              | val w => rw [hL2] at hmem; simp [refPtrs] at hmem
                              | ptr b₂ =>
                                  rw [hL2] at hmem
                                  simp only [refPtrs, List.mem_singleton] at hmem
                                  subst hmem
                                  have hb1 : b' < L.1.length := hbnd1 b' hL2
                                  have hb2 : b' < Rr.1.length :=
                                    lt_of_lt_of_le hb1 hpre2.1
                                  obtain ⟨hr2, hx2⟩ := Reach.prefixExt
                                    (prefixExt_append Rr.1 _) hcl2 hb2 hr'
                                  obtain ⟨hr1, hx1⟩ := Reach.prefixExt
                                    hpre2 hcl1 hb1 hr2
                                  obtain ⟨nm, hnm⟩ := hvar1 x ⟨b', hL2, hr1⟩ hx
                                  refine ⟨nm, ?_⟩
                                  rw [List.get?_append hx2, hpre2.2 x hx1]
                                  exact hnm
                            · cases hR2 : Rr.2 with
                              | val w => rw [hR2] at hmem; simp [refPtrs] at hmem
                              | ptr b₂ =>
                                  rw [hR2] at hmem
                                  simp only [refPtrs, List.mem_singleton] at hmem
                                  subst hmem
                                  have hb2 : b' < Rr.1.length := hbnd2 b' hR2
                                  obtain ⟨hr2, hx2⟩ := Reach.prefixExt
                                    (prefixExt_append Rr.1 _) hcl2 hb2 hr'
                                  obtain ⟨nm, hnm⟩ := hvar2 x ⟨b', hR2, hr2⟩
                                    (lt_of_lt_of_le hx hpre1.1)
                                  exact ⟨nm, by rw [List.get?_append hx2]; exact hnm⟩
          | callC n i args =>
              simp only [bind, Except.bind] at hok
              cases hrec : cloneList fuel h args with
              | error e => simp only [hrec] at hok; cases hok
              | ok Rs =>
                  simp only [hrec] at hok
                  cases hok
                  obtain ⟨hpre1, hcl1, hprops⟩ :=
                    cloneList_ok fuel h args Rs hcl hrec
                  have hnewp : ∀ p ∈ cellPtrs (Cell.callC n i Rs.2),
                      p < Rs.1.length + 1 := by
                    intro p hp
                    simp only [cellPtrs, List.mem_bind] at hp
                    obtain ⟨y, hy, hpy⟩ := hp
                    cases hY : y with
                    | val w => rw [hY] at hpy; simp [refPtrs] at hpy
                    | ptr b =>
                        rw [hY] at hpy
                        simp only [refPtrs, List.mem_singleton] at hpy
                        subst hpy
                        exact Nat.lt_succ_of_lt ((hprops y hy).1 p hY)
                  refine ⟨prefixExt_trans hpre1 (prefixExt_append Rs.1 _),
                    closed_append hcl1 hnewp, ?_, ?_⟩
                  · intro b hb
                    injection hb with hb
                    subst hb
                    simp
                  · rintro x ⟨b, hb, hr⟩ hx
                    injection hb with hb
                    subst hb
                    cases hr with
                    | refl => exact absurd hx (not_lt.mpr hpre1.1)
                    | step _ b' _ cell' hc' hmem hr' =>
                        rw [List.get?_concat_length] at hc'
                        injection hc' with hc'
                        subst hc'
                        simp only [cellPtrs, List.mem_bind] at hmem
                        obtain ⟨y, hy, hpy⟩ := hmem
                        cases hY : y with
                        | val w => rw [hY] at hpy; simp [refPtrs] at hpy
                        | ptr b₂ =>
                            rw [hY] at hpy
                            simp only [refPtrs, List.mem_singleton] at hpy
                            subst hpy
                            have hb2 : b' < Rs.1.length := (hprops y hy).1 b' hY
                            obtain ⟨hr1, hx1⟩ := Reach.prefixExt
                              (prefixExt_append Rs.1 _) hcl1 hb2 hr'
                            obtain ⟨nm, hnm⟩ :=
                              (hprops y hy).2 x ⟨b', hY, hr1⟩ hx
                            exact ⟨nm, by rw [List.get?_append hx1]; exact hnm⟩

/-- `cloneRef_ok` lifted over the argument list of a `Call` node. -/
theorem cloneList_ok : ∀ (fuel : Nat) (h : Heap) (rs : List Ref)
    (out : Heap × List Ref), Closed h → cloneList fuel h rs = .ok out →
    PrefixExt h out.1 ∧ Closed out.1 ∧
    ∀ r ∈ out.2, (∀ b, r = .ptr b → b < out.1.length) ∧
      (∀ x, RefReach out.1 r x → x < h.length →
        ∃ nm, out.1.get? x = some (.varC nm)) := by
  intro fuel h rs out hcl hok
  match fuel, rs with
  | 0, rs => exact absurd hok (by simp [cloneList])
  | fuel + 1, [] =>
      simp only [cloneList] at hok
      cases hok
      exact ⟨⟨le_refl _, fun x _ => rfl⟩, hcl, fun r hr => absurd hr (by simp)⟩
  | fuel + 1, x :: xs =>
      simp only [cloneList, bind, Except.bind] at hok
      cases hrec : cloneRef fuel h x with
      | error e => simp only [hrec] at hok; cases hok
      | ok R =>
          simp only [hrec] at hok
          obtain ⟨hpre1, hcl1, hbnd1, hvar1⟩ := cloneRef_ok fuel h x R hcl hrec
          cases hrec2 : cloneList fuel R.1 xs with
          | error e => simp only [hrec2] at hok; cases hok
          | ok Rs =>
              simp only [hrec2] at hok
              cases hok
              obtain ⟨hpre2, hcl2, hprops⟩ :=
                cloneList_ok fuel R.1 xs Rs hcl1 hrec2
              refine ⟨prefixExt_trans hpre1 hpre2, hcl2, ?_⟩
              intro r hr
              rcases List.mem_cons.mp hr with hr | hr
              · subst hr
                refine ⟨fun b hb => lt_of_lt_of_le (hbnd1 b hb) hpre2.1, ?_⟩
                rintro y ⟨b, hb, hry⟩ hy
                have hb1 : b < R.1.length := hbnd1 b hb
                obtain ⟨hr1, hy1⟩ := Reach.prefixExt hpre2 hcl1 hb1 hry
                obtain ⟨nm, hnm⟩ := hvar1 y ⟨b, hb, hr1⟩ hy
                exact ⟨nm, by rw [hpre2.2 y hy1]; exact hnm⟩
              · refine ⟨(hprops r hr).1, ?_⟩
                intro y hry hy
                exact (hprops r hr).2 y hry (lt_of_lt_of_le hy hpre1.1)

end

/-- C8: folding a clone cannot touch the original expression. For a closed
heap, after a successful `cloneNode` of the root `r` and a successful
in-place fold of the clone under any substitution map, every cell of the
original heap — in particular the original root and the whole tree reachable
from it — is exactly as it was before the clone's fold. -/
theorem C8_clone_fold_frame (fuelc fuelf : Nat) (cm : Option Cmap)
    (h : Heap) (r : Ref) (c : Heap × Ref) (f : Heap × Ref × Bool)
    (hclb : closedB h = true)
    (hclone : cloneRef fuelc h r = .ok c)
    (hfold : foldRefH fuelf cm c.1 c.2 = .ok f) :
    (∀ x, x < h.length → f.1.get? x = h.get? x) ∧
    (∀ x, RefReach h r x → f.1.get? x = h.get? x) := by
  have hcl : Closed h := closedB_closed hclb
  obtain ⟨hpre, hcl1, hbnd, hvar⟩ := cloneRef_ok fuelc h r c hcl hclone
  obtain ⟨hff, -⟩ := foldRefH_frame fuelf cm c.1 c.2 f hfold
  have hmain : ∀ x, x < h.length → f.1.get? x = h.get? x := by
    intro x hx
    by_cases hne : f.1.get? x = c.1.get? x
    · rw [hne, hpre.2 x hx]
    · obtain ⟨hreach, c₀, hc₀, hnv⟩ := hff.2.1 x hne
      obtain ⟨nm, hnm⟩ := hvar x hreach hx
      rw [hnm] at hc₀
      injection hc₀ with hc₀
      subst hc₀
      simp [isVarC] at hnv
  refine ⟨hmain, ?_⟩
  rintro x ⟨b, hb, hr⟩
  have hblen : b < h.length := by
    subst hb
    match fuelc, hclone with
    | 0, hclone => exact absurd hclone (by simp [cloneRef])
    | fuelc + 1, hclone =>
        simp only [cloneRef] at hclone
        cases hga : h.get? b with
        | none => simp only [hga] at hclone; cases hclone
        | some cell => exact get?_some_lt hga
  obtain ⟨-, hxlen⟩ :=
    Reach.prefixExt (⟨le_refl _, fun y _ => rfl⟩ : PrefixExt h h) hcl hblen hr
  exact hmain x hxlen

/-- Witness for C8: the partially folded tree `x + 1`, cloned and the clone
folded with `x := 2`; the original `Var` cell is still in place. -/
theorem C8_clone_fold_frame_witness :
    closedB heapW = true ∧
    (heapW ++ [Cell.binC "+" defAddW (.val 2) (.val 1)]).get? 0 = heapW.get? 0 :=
  ⟨by decide,
   (C8_clone_fold_frame 9 9 (some [("x", (2 : JSNum))]) heapW (.ptr 1)
      (heapWClone, .ptr 2)
      (heapW ++ [Cell.binC "+" defAddW (.val 2) (.val 1)], .val 3, true)
      (by decide) rfl rfl).1 0 (by decide)⟩
